import Mathlib

/-!
Verification of the schach rules engine.

A shallow embedding of the chess rules engine in `src/game.rs`: board state
(`GameState`), per-piece pseudo-legal move generation
(`pseudo_moves_and_captures`), check detection (`is_in_check`), the
check-aware legality filter (`moves_and_captures`), board mutation
(`apply_movement`), and the turn state machine (`turn_manager`).

Conventions of the embedding:
* Rust `i8` coordinates become `Int` (all arithmetic in the engine stays far
  from the `i8` range limits, so no wrapping can occur).
* the 8×8 array of `Option<Piece>` becomes `Fin 8 → Fin 8 → Option Piece`;
* functions that can hit a Rust `assert!`/`unwrap`/`expect` (a panic) return
  `Option`, with `none` modelling the fatal assertion-failure path;
* the unbounded `loop` in `check_line` is given explicit fuel
  (`check_line_fuel`); a stabilisation theorem shows the result is
  independent of the fuel once it is at least 9, which is the formal
  counterpart of the Rust loop terminating.

A few helpers used by `game.rs` live in repository files whose current
revision is not part of this snapshot (`BoardPosition::is_in_bounds`,
`BoardPosition + (i8, i8)`, the board-scan successor used by `PieceIter`,
`PieceColor::next`); those are modelled from the spec and marked as such.
-/

set_option maxHeartbeats 1000000

namespace Schach

/-- Piece colors, `PieceColor` in `pieces.rs`; `White` is the Rust
`Default`. -/
inductive PieceColor where
  | White
  | Black
deriving DecidableEq, Repr

/-- Modelled from the spec: `PieceColor::next` is not in the snapshot's
`pieces.rs`; the spec says the checkmate winner is the *other* color, and
`advance_turn` in `game.rs` spells out the same swap. -/
def PieceColor.next : PieceColor → PieceColor
  | .White => .Black
  | .Black => .White

/-- Piece kinds, `PieceKind` in the revision used by `game.rs`: the pawn
variant carries its `has_moved` flag. -/
inductive PieceKind where
  | King
  | Queen
  | Rook
  | Bishop
  | Knight
  | Pawn (has_moved : Bool)
deriving DecidableEq, Repr

/-- A chess piece: color plus kind (`Piece` in `pieces.rs`). -/
structure Piece where
  color : PieceColor
  kind : PieceKind
deriving DecidableEq, Repr

/-- A board coordinate (`BoardPosition` in `board.rs`): row 0 is the rank
nearest White, col 0 is file A. Rust uses `i8`; the embedding uses `Int`. -/
structure BoardPosition where
  row : Int
  col : Int
deriving DecidableEq, Repr

/-- Modelled from the spec: `BoardPosition::is_in_bounds` is not in the
snapshot's `board.rs`; the spec gives the legal range `[0,8)` for each
coordinate. -/
def BoardPosition.is_in_bounds (p : BoardPosition) : Bool :=
  decide (0 ≤ p.row) && decide (p.row < 8) && decide (0 ≤ p.col) && decide (p.col < 8)

/-- Modelled from the spec: addition of an `(i8, i8)` offset to a
`BoardPosition` ("addition-by-offset" value semantics in the spec),
used pervasively by `game.rs` as `pos + (dr, dc)`. -/
instance : HAdd BoardPosition (Int × Int) BoardPosition :=
  ⟨fun p d => ⟨p.row + d.1, p.col + d.2⟩⟩

theorem BoardPosition.add_def (p : BoardPosition) (d : Int × Int) :
    p + d = ⟨p.row + d.1, p.col + d.2⟩ := rfl

theorem BoardPosition.is_in_bounds_iff (p : BoardPosition) :
    p.is_in_bounds = true ↔ 0 ≤ p.row ∧ p.row < 8 ∧ 0 ≤ p.col ∧ p.col < 8 := by
  simp [BoardPosition.is_in_bounds, and_assoc]

/-- Row index of an in-bounds position, as `Fin 8` (Rust:
`pos.row as usize`). -/
def BoardPosition.rowFin (p : BoardPosition) (h : p.is_in_bounds = true) : Fin 8 :=
  ⟨p.row.toNat, by have := (BoardPosition.is_in_bounds_iff p).mp h; omega⟩

/-- Column index of an in-bounds position, as `Fin 8` (Rust:
`pos.col as usize`). -/
def BoardPosition.colFin (p : BoardPosition) (h : p.is_in_bounds = true) : Fin 8 :=
  ⟨p.col.toNat, by have := (BoardPosition.is_in_bounds_iff p).mp h; omega⟩

/-- Outcome classification for a probed square (`MoveCapture` in
`game.rs`). -/
inductive MoveCapture where
  | Move
  | Capture
deriving DecidableEq, Repr

/-- Game-over outcome (`GameOver` in `game.rs`); `Checkmate` carries the
winner. -/
inductive GameOver where
  | Checkmate (winner : PieceColor)
  | Stalemate
deriving DecidableEq, Repr

/-- The full rules-engine state (`GameState` in `game.rs`): 8×8 board of
optional pieces, current player, and the game-over flag. -/
structure GameState where
  board : Fin 8 → Fin 8 → Option Piece
  curr_player : PieceColor
  game_over : Option GameOver

/-- Board lookup, `GameState::get_pos`: `None` both for an empty square and
for an out-of-bounds position. -/
def GameState.get_pos (g : GameState) (pos : BoardPosition) : Option Piece :=
  if h : pos.is_in_bounds then g.board (pos.rowFin h) (pos.colFin h) else none

/-- Board update, `GameState::set_pos`: replaces the occupant and returns
the previous one (`mem::replace`); a no-op returning `none` out of
bounds. -/
def GameState.set_pos (g : GameState) (pos : BoardPosition) (piece : Option Piece) :
    GameState × Option Piece :=
  if h : pos.is_in_bounds then
    ({ g with
        board := fun r c =>
          if r = pos.rowFin h ∧ c = pos.colFin h then piece else g.board r c },
     g.board (pos.rowFin h) (pos.colFin h))
  else (g, none)

/-- Flag update applied to the moving piece by `apply_movement`: only
`Pawn(false)` changes, to `Pawn(true)`. -/
def Piece.after_move (p : Piece) : Piece :=
  { p with
      kind :=
        match p.kind with
        | PieceKind.Pawn false => PieceKind.Pawn true
        | x => x }

/-- Board mutation, `GameState::apply_movement`. The three Rust `assert!`s
(source in bounds, target in bounds, source occupied) are the `none`
branches: `none` models the fatal assertion-failure path (panic). On
success it returns the updated state together with the piece previously at
`to_pos`. -/
def GameState.apply_movement (g : GameState) (from_pos to_pos : BoardPosition) :
    Option (GameState × Option Piece) :=
  if !from_pos.is_in_bounds then none
  else if !to_pos.is_in_bounds then none
  else
    match g.get_pos from_pos with
    | none => none
    | some moving_piece =>
      let taken_piece := g.get_pos to_pos
      let g1 := (g.set_pos from_pos none).1
      let g2 := (g1.set_pos to_pos (some moving_piece.after_move)).1
      some (g2, taken_piece)

/-- Player alternation, `GameState::advance_turn`. -/
def GameState.advance_turn (g : GameState) : GameState :=
  { g with
      curr_player :=
        match g.curr_player with
        | PieceColor.White => PieceColor.Black
        | PieceColor.Black => PieceColor.White }

theorem get_pos_of_not_in_bounds (g : GameState) {pos : BoardPosition}
    (h : ¬pos.is_in_bounds = true) : g.get_pos pos = none := by
  simp [GameState.get_pos, h]

theorem in_bounds_of_get_pos_some {g : GameState} {pos : BoardPosition} {p : Piece}
    (h : g.get_pos pos = some p) : pos.is_in_bounds = true := by
  by_contra hb
  rw [get_pos_of_not_in_bounds g hb] at h
  exact Option.noConfusion h

/-- Two in-bounds positions with the same `Fin 8` indices are equal. -/
theorem BoardPosition.eq_of_fin_eq {p q : BoardPosition}
    (hp : p.is_in_bounds = true) (hq : q.is_in_bounds = true)
    (hrow : p.rowFin hp = q.rowFin hq) (hcol : p.colFin hp = q.colFin hq) : p = q := by
  have hp' := (BoardPosition.is_in_bounds_iff p).mp hp
  have hq' := (BoardPosition.is_in_bounds_iff q).mp hq
  have h1 : p.row.toNat = q.row.toNat := congrArg Fin.val hrow
  have h2 : p.col.toNat = q.col.toNat := congrArg Fin.val hcol
  have hr : p.row = q.row := by omega
  have hc : p.col = q.col := by omega
  cases p; cases q
  simp_all

/-- Reading back through `set_pos`: the updated cell holds the new value,
every other cell is unchanged. -/
theorem get_pos_set_pos (g : GameState) (pos : BoardPosition) (piece : Option Piece)
    (q : BoardPosition) :
    ((g.set_pos pos piece).1).get_pos q =
      if q = pos ∧ pos.is_in_bounds = true then piece else g.get_pos q := by
  by_cases hpos : pos.is_in_bounds = true
  · by_cases hq : q.is_in_bounds = true
    · by_cases hqp : q = pos
      · subst hqp
        simp [GameState.set_pos, GameState.get_pos, hpos, hq]
      · have : ¬(q.rowFin hq = pos.rowFin hpos ∧ q.colFin hq = pos.colFin hpos) := by
          intro ⟨h1, h2⟩
          exact hqp (BoardPosition.eq_of_fin_eq hq hpos h1 h2)
        simp only [GameState.set_pos, hpos, dif_pos, GameState.get_pos, hq]
        simp [this, hqp]
    · have h1 : ¬(q = pos ∧ pos.is_in_bounds = true) := by
        intro ⟨h, _⟩; subst h; exact hq hpos
      simp only [h1, if_false]
      have : ((g.set_pos pos piece).1).get_pos q = none := get_pos_of_not_in_bounds _ hq
      rw [this, get_pos_of_not_in_bounds g hq]
  · simp [GameState.set_pos, hpos]

/-- Square classification, `GameState::is_move_or_capture`: `none` when the
square is off-board or blocked by a friendly piece, `Capture` on an enemy
piece, `Move` on an empty square. -/
def GameState.is_move_or_capture (g : GameState) (piece : Piece) (pos : BoardPosition) :
    Option MoveCapture :=
  if !pos.is_in_bounds then none
  else
    match g.get_pos pos with
    | some q => if q.color = piece.color then none else some MoveCapture.Capture
    | none => some MoveCapture.Move

theorem is_move_or_capture_eq_move_iff (g : GameState) (piece : Piece) (pos : BoardPosition) :
    g.is_move_or_capture piece pos = some MoveCapture.Move ↔
      pos.is_in_bounds = true ∧ g.get_pos pos = none := by
  unfold GameState.is_move_or_capture
  by_cases h : pos.is_in_bounds = true
  · simp only [h, Bool.not_true, Bool.false_eq_true, if_false]
    cases hg : g.get_pos pos with
    | none => simp
    | some q =>
      by_cases hc : q.color = piece.color <;> simp [hc]
  · simp [h]

theorem is_move_or_capture_eq_capture_iff (g : GameState) (piece : Piece) (pos : BoardPosition) :
    g.is_move_or_capture piece pos = some MoveCapture.Capture ↔
      pos.is_in_bounds = true ∧ ∃ q, g.get_pos pos = some q ∧ q.color ≠ piece.color := by
  unfold GameState.is_move_or_capture
  by_cases h : pos.is_in_bounds = true
  · simp only [h, Bool.not_true, Bool.false_eq_true, if_false]
    cases hg : g.get_pos pos with
    | none => simp
    | some q =>
      by_cases hc : q.color = piece.color <;> simp [hc]
  · simp [h]

/-- Accumulation of probed squares (`GameState::save_moves_captures`
iterated over a list of target positions, in order): `Move`s go to the
first list, `Capture`s to the second, blocked/off-board squares are
dropped. -/
def GameState.save_all (g : GameState) (piece : Piece) :
    List BoardPosition → List BoardPosition × List BoardPosition
  | [] => ([], [])
  | pos :: rest =>
    let (m, c) := g.save_all piece rest
    match g.is_move_or_capture piece pos with
    | some MoveCapture.Move => (pos :: m, c)
    | some MoveCapture.Capture => (m, pos :: c)
    | none => (m, c)

theorem mem_save_all_moves {g : GameState} {piece : Piece} {ps : List BoardPosition}
    {p : BoardPosition} (h : p ∈ (g.save_all piece ps).1) :
    p ∈ ps ∧ g.is_move_or_capture piece p = some MoveCapture.Move := by
  induction ps with
  | nil => simp [GameState.save_all] at h
  | cons q rest ih =>
    rw [GameState.save_all] at h
    rcases hq : g.is_move_or_capture piece q with _ | mc
    · rw [hq] at h
      have := ih h
      exact ⟨List.mem_cons_of_mem _ this.1, this.2⟩
    · cases mc with
      | Move =>
        rw [hq] at h
        rcases List.mem_cons.mp h with h1 | h1
        · subst h1; exact ⟨List.mem_cons_self _ _, hq⟩
        · have := ih h1
          exact ⟨List.mem_cons_of_mem _ this.1, this.2⟩
      | Capture =>
        rw [hq] at h
        have := ih h
        exact ⟨List.mem_cons_of_mem _ this.1, this.2⟩

theorem mem_save_all_captures {g : GameState} {piece : Piece} {ps : List BoardPosition}
    {p : BoardPosition} (h : p ∈ (g.save_all piece ps).2) :
    p ∈ ps ∧ g.is_move_or_capture piece p = some MoveCapture.Capture := by
  induction ps with
  | nil => simp [GameState.save_all] at h
  | cons q rest ih =>
    rw [GameState.save_all] at h
    rcases hq : g.is_move_or_capture piece q with _ | mc
    · rw [hq] at h
      have := ih h
      exact ⟨List.mem_cons_of_mem _ this.1, this.2⟩
    · cases mc with
      | Move =>
        rw [hq] at h
        have := ih h
        exact ⟨List.mem_cons_of_mem _ this.1, this.2⟩
      | Capture =>
        rw [hq] at h
        rcases List.mem_cons.mp h with h1 | h1
        · subst h1; exact ⟨List.mem_cons_self _ _, hq⟩
        · have := ih h1
          exact ⟨List.mem_cons_of_mem _ this.1, this.2⟩

/-- Fuelled version of the ray walk in `GameState::check_line`. The Rust
code is an unbounded `loop`; fuel makes it total, and
`check_line_fuel_stable_of_breaks` below recovers the termination fact. -/
def GameState.check_line_fuel (g : GameState) (piece : Piece) (pos : BoardPosition)
    (direction : Int × Int) : Nat → List BoardPosition × List BoardPosition
  | 0 => ([], [])
  | fuel + 1 =>
    match g.is_move_or_capture piece (pos + direction) with
    | some MoveCapture.Move =>
      ((pos + direction) :: (g.check_line_fuel piece (pos + direction) direction fuel).1,
       (g.check_line_fuel piece (pos + direction) direction fuel).2)
    | some MoveCapture.Capture => ([], [pos + direction])
    | none => ([], [])

/-- Ray walk, `GameState::check_line`: steps one `direction` at a time from
`from_pos`, collecting empty squares as moves until blocked; an enemy
blocker is recorded as the single capture. Fuel 16 is more than the walk
can ever consume from any position the engine passes in (shown by
`check_line_fuel_stable_of_breaks`). -/
def GameState.check_line (g : GameState) (piece : Piece) (from_pos : BoardPosition)
    (direction : Int × Int) : List BoardPosition × List BoardPosition :=
  g.check_line_fuel piece from_pos direction 16

/-- Position reached after `j` steps of a ray from `f` in direction `d`. -/
def rayStep (f : BoardPosition) (d : Int × Int) (j : Nat) : BoardPosition :=
  ⟨f.row + j * d.1, f.col + j * d.2⟩

theorem rayStep_one (f : BoardPosition) (d : Int × Int) : rayStep f d 1 = f + d := by
  simp [rayStep, BoardPosition.add_def]

theorem rayStep_succ_shift (f : BoardPosition) (d : Int × Int) (j : Nat) :
    rayStep f d (j + 1) = rayStep (f + d) d j := by
  simp only [rayStep, BoardPosition.add_def, BoardPosition.mk.injEq]
  constructor <;> push_cast <;> ring

/-- The queen's direction set, as listed in `pseudo_moves_and_captures`
(rook directions first, then bishop directions). -/
def queenDirections : List (Int × Int) :=
  [(-1, 0), (1, 0), (0, 1), (0, -1), (-1, -1), (-1, 1), (1, -1), (1, 1)]

/-- The rook's direction set, as listed in `pseudo_moves_and_captures`. -/
def rookDirections : List (Int × Int) :=
  [(-1, 0), (1, 0), (0, 1), (0, -1)]

/-- The bishop's direction set, as listed in `pseudo_moves_and_captures`. -/
def bishopDirections : List (Int × Int) :=
  [(-1, -1), (-1, 1), (1, -1), (1, 1)]

/-- A ray from an in-bounds square in one of the eight unit directions
leaves the board within 8 steps: if step `j` is still in bounds then
`j ≤ 7`. -/
theorem ray_in_bounds_le {d : Int × Int} (hd : d ∈ queenDirections)
    {f : BoardPosition} (hf : f.is_in_bounds = true) {j : Nat}
    (hj : (rayStep f d j).is_in_bounds = true) : j ≤ 7 := by
  rw [BoardPosition.is_in_bounds_iff] at hf
  fin_cases hd <;>
    (rw [BoardPosition.is_in_bounds_iff] at hj; simp only [rayStep] at hj; omega)

/-- Membership in the moves list of the fuelled ray walk: exactly the
positions `j ≥ 1` steps out whose whole prefix of probed squares
classifies as `Move`. -/
theorem mem_check_line_fuel_moves (g : GameState) (piece : Piece) (d : Int × Int) :
    ∀ (fuel : Nat) (f p : BoardPosition),
      p ∈ (g.check_line_fuel piece f d fuel).1 ↔
        ∃ j, 1 ≤ j ∧ j ≤ fuel ∧ p = rayStep f d j ∧
          ∀ i, 1 ≤ i → i ≤ j →
            g.is_move_or_capture piece (rayStep f d i) = some MoveCapture.Move := by
  intro fuel
  induction fuel with
  | zero =>
    intro f p
    simp only [GameState.check_line_fuel, List.not_mem_nil, false_iff]
    rintro ⟨j, h1, h2, -⟩
    omega
  | succ fuel ih =>
    intro f p
    rw [GameState.check_line_fuel]
    rcases hcls : g.is_move_or_capture piece (f + d) with _ | mc
    · simp only [List.not_mem_nil, false_iff]
      rintro ⟨j, hj1, hj2, hp, hall⟩
      have h1 := hall 1 le_rfl hj1
      rw [rayStep_one, hcls] at h1
      exact Option.noConfusion h1
    · cases mc with
      | Move =>
        simp only [List.mem_cons, ih (f + d) p]
        constructor
        · rintro (rfl | ⟨j, hj1, hj2, rfl, hall⟩)
          · refine ⟨1, le_rfl, by omega, (rayStep_one f d).symm, ?_⟩
            intro i hi1 hi2
            have : i = 1 := by omega
            subst this
            rw [rayStep_one]
            exact hcls
          · refine ⟨j + 1, by omega, by omega, (rayStep_succ_shift f d j).symm ▸ rfl, ?_⟩
            intro i hi1 hi2
            rcases Nat.exists_eq_add_of_le hi1 with ⟨i', rfl⟩
            rcases Nat.eq_zero_or_pos i' with rfl | hi'
            · rw [rayStep_one]; exact hcls
            · have : 1 + i' = i' + 1 := by omega
              rw [this, rayStep_succ_shift f d i']
              exact hall i' hi' (by omega)
        · rintro ⟨j, hj1, hj2, rfl, hall⟩
          rcases Nat.exists_eq_add_of_le hj1 with ⟨j', rfl⟩
          rcases Nat.eq_zero_or_pos j' with rfl | hj'
          · left; rw [rayStep_one]
          · right
            have h1j : (1 + j') = j' + 1 := by omega
            refine ⟨j', hj', by omega, by rw [h1j, rayStep_succ_shift f d j'], ?_⟩
            intro i hi1 hi2
            rw [← rayStep_succ_shift f d i]
            exact hall (i + 1) (by omega) (by omega)
      | Capture =>
        simp only [List.not_mem_nil, false_iff]
        rintro ⟨j, hj1, hj2, hp, hall⟩
        have h1 := hall 1 le_rfl hj1
        rw [rayStep_one, hcls] at h1
        exact MoveCapture.noConfusion (Option.some.inj h1)

/-- Membership in the captures list of the fuelled ray walk: the first
probed square that is not a `Move`, provided it classifies as a
`Capture`. -/
theorem mem_check_line_fuel_captures (g : GameState) (piece : Piece) (d : Int × Int) :
    ∀ (fuel : Nat) (f p : BoardPosition),
      p ∈ (g.check_line_fuel piece f d fuel).2 ↔
        ∃ j, 1 ≤ j ∧ j ≤ fuel ∧ p = rayStep f d j ∧
          g.is_move_or_capture piece (rayStep f d j) = some MoveCapture.Capture ∧
          ∀ i, 1 ≤ i → i < j →
            g.is_move_or_capture piece (rayStep f d i) = some MoveCapture.Move := by
  intro fuel
  induction fuel with
  | zero =>
    intro f p
    simp only [GameState.check_line_fuel, List.not_mem_nil, false_iff]
    rintro ⟨j, h1, h2, -⟩
    omega
  | succ fuel ih =>
    intro f p
    rw [GameState.check_line_fuel]
    rcases hcls : g.is_move_or_capture piece (f + d) with _ | mc
    · simp only [List.not_mem_nil, false_iff]
      rintro ⟨j, hj1, hj2, hp, hcap, hall⟩
      rcases Nat.exists_eq_add_of_le hj1 with ⟨j', rfl⟩
      rcases Nat.eq_zero_or_pos j' with rfl | hj'
      · rw [rayStep_one, hcls] at hcap
        exact Option.noConfusion hcap
      · have h1 := hall 1 le_rfl (by omega)
        rw [rayStep_one, hcls] at h1
        exact Option.noConfusion h1
    · cases mc with
      | Move =>
        simp only [ih (f + d) p]
        constructor
        · rintro ⟨j, hj1, hj2, rfl, hcap, hall⟩
          refine ⟨j + 1, by omega, by omega, (rayStep_succ_shift f d j).symm ▸ rfl, ?_, ?_⟩
          · rw [rayStep_succ_shift f d j]; exact hcap
          · intro i hi1 hi2
            rcases Nat.exists_eq_add_of_le hi1 with ⟨i', rfl⟩
            rcases Nat.eq_zero_or_pos i' with rfl | hi'
            · rw [rayStep_one]; exact hcls
            · have : 1 + i' = i' + 1 := by omega
              rw [this, rayStep_succ_shift f d i']
              exact hall i' hi' (by omega)
        · rintro ⟨j, hj1, hj2, rfl, hcap, hall⟩
          rcases Nat.exists_eq_add_of_le hj1 with ⟨j', rfl⟩
          rcases Nat.eq_zero_or_pos j' with rfl | hj'
          · rw [rayStep_one, hcls] at hcap
            exact MoveCapture.noConfusion (Option.some.inj hcap)
          · have h1j : (1 + j') = j' + 1 := by omega
            refine ⟨j', hj', by omega, by rw [h1j, rayStep_succ_shift f d j'], ?_, ?_⟩
            · rw [← rayStep_succ_shift f d j', ← h1j]
              exact hcap
            · intro i hi1 hi2
              rw [← rayStep_succ_shift f d i]
              exact hall (i + 1) (by omega) (by omega)
      | Capture =>
        simp only [List.mem_cons, List.not_mem_nil, or_false]
        constructor
        · rintro rfl
          refine ⟨1, le_rfl, by omega, (rayStep_one f d).symm, ?_, ?_⟩
          · rw [rayStep_one]; exact hcls
          · intro i hi1 hi2; omega
        · rintro ⟨j, hj1, hj2, rfl, hcap, hall⟩
          rcases Nat.exists_eq_add_of_le hj1 with ⟨j', rfl⟩
          rcases Nat.eq_zero_or_pos j' with rfl | hj'
          · rw [rayStep_one]
          · have h1 := hall 1 le_rfl (by omega)
            rw [rayStep_one, hcls] at h1
            exact MoveCapture.noConfusion (Option.some.inj h1)

/-- Fuel-independence of the ray walk past a break point: if some probed
square within the first `k` steps fails to classify as `Move` (the loop
breaks there), every fuel of at least `k` computes the same result. -/
theorem check_line_fuel_stable_of_breaks (g : GameState) (piece : Piece) (d : Int × Int) :
    ∀ (k : Nat) (f : BoardPosition) (fuel : Nat), k ≤ fuel →
      (∃ i, 1 ≤ i ∧ i ≤ k ∧
        g.is_move_or_capture piece (rayStep f d i) ≠ some MoveCapture.Move) →
      g.check_line_fuel piece f d fuel = g.check_line_fuel piece f d k := by
  intro k
  induction k with
  | zero =>
    rintro f fuel - ⟨i, hi1, hi2, -⟩
    omega
  | succ k ih =>
    rintro f fuel hfuel ⟨i, hi1, hi2, hbrk⟩
    rcases Nat.exists_eq_add_of_le hfuel with ⟨fuel', rfl⟩
    have hsh : k + 1 + fuel' = (k + fuel') + 1 := by omega
    rw [hsh, GameState.check_line_fuel, GameState.check_line_fuel]
    rcases hcls : g.is_move_or_capture piece (f + d) with _ | mc
    · rfl
    · cases mc with
      | Move =>
        have hi1' : 2 ≤ i := by
          rcases Nat.lt_or_ge i 2 with h | h
          · exfalso
            have : i = 1 := by omega
            subst this
            rw [rayStep_one] at hbrk
            exact hbrk hcls
          · exact h
        have hrec : g.check_line_fuel piece (f + d) d (k + fuel') =
            g.check_line_fuel piece (f + d) d k := by
          apply ih (f + d) (k + fuel') (by omega)
          refine ⟨i - 1, by omega, by omega, ?_⟩
          have : i - 1 + 1 = i := by omega
          rw [← rayStep_succ_shift f d (i - 1), this]
          exact hbrk
        rw [hrec]
      | Capture => rfl

/-- From an in-bounds origin, a ray in one of the eight engine directions
is guaranteed to break (leave the board or hit a piece) within 9 probes. -/
theorem exists_ray_break (g : GameState) (piece : Piece) {d : Int × Int}
    (hd : d ∈ queenDirections) {f : BoardPosition} (hf : f.is_in_bounds = true) :
    ∃ i, 1 ≤ i ∧ i ≤ 9 ∧
      g.is_move_or_capture piece (rayStep f d i) ≠ some MoveCapture.Move := by
  by_contra h
  push_neg at h
  have h9 := h 9 (by omega) (by omega)
  have hin := ((is_move_or_capture_eq_move_iff g piece _).mp h9).1
  have := ray_in_bounds_le hd hf hin
  omega

/-- The ray walk's result is independent of the fuel once the fuel is at
least 9: together with `check_line = check_line_fuel 16`, this is the
formal counterpart of the Rust `loop` in `check_line` terminating. -/
theorem check_line_fuel_eq_check_line (g : GameState) (piece : Piece) {d : Int × Int}
    (hd : d ∈ queenDirections) {f : BoardPosition} (hf : f.is_in_bounds = true)
    {fuel : Nat} (hfuel : 9 ≤ fuel) :
    g.check_line_fuel piece f d fuel = g.check_line piece f d := by
  have hbrk := exists_ray_break g piece hd hf
  rw [GameState.check_line,
    check_line_fuel_stable_of_breaks g piece d 9 f fuel hfuel hbrk,
    check_line_fuel_stable_of_breaks g piece d 9 f 16 (by omega) hbrk]

/-- The king's eight unit offsets, as listed in
`pseudo_moves_and_captures`. -/
def kingOffsets : List (Int × Int) :=
  [(-1, -1), (-1, 0), (-1, 1), (0, -1), (0, 1), (1, -1), (1, 0), (1, 1)]

/-- The knight's four diagonal seeds, as listed in
`pseudo_moves_and_captures`; each seed is extended one further step along
each of its axes. -/
def knightDiags : List (Int × Int) :=
  [(-1, -1), (-1, 1), (1, -1), (1, 1)]

/-- The eight knight target squares probed by `pseudo_moves_and_captures`,
in probe order: for each diagonal seed, first the row-axis extension, then
the column-axis extension. -/
def knightTargets (piece_pos : BoardPosition) : List BoardPosition :=
  knightDiags.foldr
    (fun diag acc =>
      ((piece_pos + diag) + (diag.1, (0 : Int))) ::
        ((piece_pos + diag) + ((0 : Int), diag.2)) :: acc)
    []

/-- Concatenated ray results over a direction list, in order: the
`moves.extend(m); captures.extend(c)` loop of the Queen/Rook/Bishop arms
of `pseudo_moves_and_captures`. -/
def GameState.lines_along (g : GameState) (piece : Piece) (from_pos : BoardPosition) :
    List (Int × Int) → List BoardPosition × List BoardPosition
  | [] => ([], [])
  | d :: rest =>
    ((g.check_line piece from_pos d).1 ++ (g.lines_along piece from_pos rest).1,
     (g.check_line piece from_pos d).2 ++ (g.lines_along piece from_pos rest).2)

/-- The pawn's forward direction: `+1` row for White, `-1` for Black
(`next_row` in the Pawn arm of `pseudo_moves_and_captures`). -/
def pawnDir : PieceColor → Int
  | PieceColor.White => 1
  | PieceColor.Black => -1

/-- Per-piece pseudo-legal move generation,
`GameState::pseudo_moves_and_captures`: legality with respect to board
bounds and occupancy only, ignoring check. Returns the moves list and the
captures list, in the source's push order. -/
def GameState.pseudo_moves_and_captures (g : GameState) (piece : Piece)
    (piece_pos : BoardPosition) : List BoardPosition × List BoardPosition :=
  match piece.kind with
  | PieceKind.King => g.save_all piece (kingOffsets.map (fun off => piece_pos + off))
  | PieceKind.Queen => g.lines_along piece piece_pos queenDirections
  | PieceKind.Rook => g.lines_along piece piece_pos rookDirections
  | PieceKind.Bishop => g.lines_along piece piece_pos bishopDirections
  | PieceKind.Knight => g.save_all piece (knightTargets piece_pos)
  | PieceKind.Pawn has_moved =>
    let next_row := pawnDir piece.color
    let one_pos := piece_pos + (next_row, (0 : Int))
    let two_pos := piece_pos + (next_row * 2, (0 : Int))
    let moves :=
      (if one_pos.is_in_bounds && (g.get_pos one_pos).isNone then [one_pos] else []) ++
      (if !has_moved && (two_pos.is_in_bounds && (g.get_pos two_pos).isNone)
        then [two_pos] else [])
    let captures :=
      ([-1, 1] : List Int).filterMap (fun c =>
        let new_pos := piece_pos + (next_row, c)
        if new_pos.is_in_bounds then
          match g.get_pos new_pos with
          | some q => if q.color ≠ piece.color then some new_pos else none
          | none => none
        else none)
    (moves, captures)

/-- The 64 board squares in the scan order of `PieceIter` (row-major, then
column-major; modelled from the spec, the successor method itself being
outside the snapshot). -/
def allPositions : List BoardPosition :=
  (List.range 8).flatMap
    (fun (r : Nat) => (List.range 8).map (fun (c : Nat) => ⟨(r : Int), (c : Int)⟩))

/-- Piece scan, `GameState::iter_pieces`: every `(piece, position)` pair on
the board, in scan order. -/
def GameState.iter_pieces (g : GameState) : List (Piece × BoardPosition) :=
  allPositions.filterMap (fun pos => (g.get_pos pos).map (fun piece => (piece, pos)))

theorem mem_allPositions_iff (pos : BoardPosition) :
    pos ∈ allPositions ↔ pos.is_in_bounds = true := by
  constructor
  · intro h
    obtain ⟨r, hr, h2⟩ := List.mem_flatMap.mp h
    obtain ⟨c, hc, rfl⟩ := List.mem_map.mp h2
    rw [List.mem_range] at hr hc
    rw [BoardPosition.is_in_bounds_iff]
    refine ⟨?_, ?_, ?_, ?_⟩ <;> dsimp only <;> omega
  · intro h
    rw [BoardPosition.is_in_bounds_iff] at h
    apply List.mem_flatMap.mpr
    refine ⟨pos.row.toNat, List.mem_range.mpr (by omega), ?_⟩
    apply List.mem_map.mpr
    refine ⟨pos.col.toNat, List.mem_range.mpr (by omega), ?_⟩
    obtain ⟨r, c⟩ := pos
    dsimp only at h
    simp only [BoardPosition.mk.injEq]
    constructor <;> omega

theorem mem_iter_pieces_iff (g : GameState) (x : Piece × BoardPosition) :
    x ∈ g.iter_pieces ↔ g.get_pos x.2 = some x.1 := by
  simp only [GameState.iter_pieces, List.mem_filterMap, Option.map_eq_some']
  constructor
  · rintro ⟨pos, hmem, piece, hget, heq⟩
    cases heq
    exact hget
  · intro hget
    exact ⟨x.2, (mem_allPositions_iff x.2).mpr (in_bounds_of_get_pos_some hget),
      x.1, hget, rfl⟩

/-- King lookup, `GameState::get_king_pos`: the first scanned square
holding the given player's king; `none` models the `expect` panic when no
king exists. -/
def GameState.get_king_pos (g : GameState) (player : PieceColor) : Option BoardPosition :=
  (g.iter_pieces.find? (fun x => decide (x.1 = ⟨player, PieceKind.King⟩))).map
    (fun x => x.2)

/-- Check detection, `GameState::is_in_check`: whether any opposing
piece's pseudo-captures list contains the player's king square. `none`
models the `expect` panic of the inner `get_king_pos` call when the color
has no king — the function does not produce a Boolean in that case. -/
def GameState.is_in_check (g : GameState) (player : PieceColor) : Option Bool :=
  match g.get_king_pos player with
  | some king_pos =>
    some ((g.iter_pieces.filter (fun x => decide (x.1.color ≠ player))).any
      (fun x => (g.pseudo_moves_and_captures x.1 x.2).2.any (fun p => decide (king_pos = p))))
  | none => none

/-- The retained-candidate test of `GameState::moves_and_captures`: clone
the state, apply the candidate movement, advance the turn, and demand the
moving piece's own color is not in check. `none` models a panic inside
the `retain` closure — either `apply_movement`'s asserts or
`is_in_check`'s `expect` when the simulated state has no king of the
moving piece's color. -/
def GameState.sim_ok (g : GameState) (piece : Piece) (piece_pos pos : BoardPosition) :
    Option Bool :=
  match g.apply_movement piece_pos pos with
  | some (new_state, _) =>
    (new_state.advance_turn.is_in_check piece.color).map (fun b => !b)
  | none => none

/-- One `Vec::retain` pass of `GameState::moves_and_captures`: keep the
candidates whose test is `some true`, in order; `none` as soon as the
test panics on some candidate. -/
def GameState.retain_safe (g : GameState) (piece : Piece) (piece_pos : BoardPosition) :
    List BoardPosition → Option (List BoardPosition)
  | [] => some []
  | pos :: rest =>
    match g.sim_ok piece piece_pos pos, g.retain_safe piece piece_pos rest with
    | some keep, some l => some (if keep then pos :: l else l)
    | _, _ => none

/-- Check-aware move generation, `GameState::moves_and_captures`: the
pseudo moves and captures, each list filtered (`Vec::retain`, order
preserved) by the clone-simulate-discard test; `none` models a panic
inside either retain pass. -/
def GameState.moves_and_captures (g : GameState) (piece : Piece) (piece_pos : BoardPosition) :
    Option (List BoardPosition × List BoardPosition) :=
  match g.retain_safe piece piece_pos (g.pseudo_moves_and_captures piece piece_pos).1,
        g.retain_safe piece piece_pos (g.pseudo_moves_and_captures piece piece_pos).2 with
  | some m, some c => some (m, c)
  | _, _ => none

/-- The short-circuiting `Iterator::all` scan of
`GameState::no_legal_moves`: stops at the first piece with a legal move
(`some false`) and propagates a panic (`none`) raised while generating a
scanned piece's legal moves. -/
def GameState.no_legal_moves_from (g : GameState) :
    List (Piece × BoardPosition) → Option Bool
  | [] => some true
  | x :: rest =>
    match g.moves_and_captures x.1 x.2 with
    | none => none
    | some (m, c) =>
      if m.isEmpty && c.isEmpty then g.no_legal_moves_from rest else some false

/-- Stalemate/checkmate scan, `GameState::no_legal_moves`: every piece of
the current player has empty legal moves and captures; `none` models a
panic inside the per-piece `moves_and_captures` call. -/
def GameState.no_legal_moves (g : GameState) : Option Bool :=
  g.no_legal_moves_from (g.iter_pieces.filter (fun x => decide (x.1.color = g.curr_player)))

/-- An ECS entity identifier (Bevy `Entity`), abstracted to a number. -/
abbrev Entity : Type := Nat

/-- Mouse buttons relevant to `ClickSquareEvent`. -/
inductive MouseButton where
  | Left
  | Right
  | Middle
deriving DecidableEq, Repr

/-- A square-selection input event (`ClickSquareEvent` in `board.rs`):
`board_pos = none` is a click that hit nothing pickable. -/
structure ClickSquareEvent where
  kind : MouseButton
  board_pos : Option BoardPosition

/-- An animation-finished input event (`PieceAnimCompleteEvent` in
`pieces.rs`). -/
structure PieceAnimCompleteEvent where
  entity : Entity

/-- An outbound move signal (`PieceMoveEvent` in `pieces.rs`, as
constructed by `turn_manager` with source and target). -/
structure PieceMoveEvent where
  entity : Entity
  source : BoardPosition
  target : BoardPosition

/-- The turn machine's states (`TurnState` in `game.rs`);
`CheckForGameOver` is the Rust `Default`. -/
inductive TurnState where
  | CheckForGameOver
  | SelectPiece
  | ShowHighlights
  | SelectTarget
  | AnimateMove
  | CheckCapture
  | EndTurn
deriving DecidableEq, Repr

/-- The turn machine's transient per-turn data (`TurnData` in
`game.rs`). -/
structure TurnData where
  state : TurnState
  move_piece : Option Entity
  move_target : Option BoardPosition

/-- `TurnData::reset`: back to `CheckForGameOver` with selections
cleared. -/
def TurnData.reset (_td : TurnData) : TurnData :=
  ⟨TurnState.CheckForGameOver, none, none⟩

/-- ECS side effects issued by `turn_manager` through `Commands`: marker
component insertions/removals and despawns. -/
inductive Command where
  | insertValidMove (e : Entity)
  | insertCaptured (e : Entity)
  | removeValidMove (e : Entity)
  | despawn (e : Entity)

/-- The query snapshots and event queues `turn_manager` receives from the
ECS in one invocation. -/
structure TurnInputs where
  click_square_events : List ClickSquareEvent
  piece_query : List (Entity × BoardPosition)
  captured_query : List Entity
  square_query : List (Entity × BoardPosition)
  valid_moves_query : List (Entity × BoardPosition)
  anim_complete_events : List PieceAnimCompleteEvent

/-- The result of one `turn_manager` invocation: updated game state and
turn data, plus the ECS commands and move events it issued. -/
structure TurnOutput where
  game_state : GameState
  turn_data : TurnData
  commands : List Command
  piece_move_events : List PieceMoveEvent

/-- The inner scan of the `SelectPiece` arm: walk the piece query looking
for a piece of the current player on the clicked square. The outer `none`
models the `expect` panic when a queried entity's square is empty in the
game state. -/
def find_own_piece (g : GameState) (pos : BoardPosition) :
    List (Entity × BoardPosition) → Option (Option Entity)
  | [] => some none
  | (e, ppos) :: rest =>
    match g.get_pos ppos with
    | none => none
    | some piece =>
      if g.curr_player = piece.color ∧ pos = ppos then some (some e)
      else find_own_piece g pos rest

/-- The `SelectPiece` arm of `turn_manager`: process the queued click
events in arrival order; a left click on an own piece remembers it and
moves to `ShowHighlights`, a left click off the board clears the
selection. -/
def select_piece_step (g : GameState) (pieces : List (Entity × BoardPosition)) :
    TurnData → List ClickSquareEvent → Option TurnData
  | td, [] => some td
  | td, ev :: rest =>
    if ev.kind = MouseButton.Left then
      match ev.board_pos with
      | some pos =>
        match find_own_piece g pos pieces with
        | none => none
        | some (some e) =>
          select_piece_step g pieces
            { td with move_piece := some e, state := TurnState.ShowHighlights } rest
        | some none => select_piece_step g pieces td rest
      | none => select_piece_step g pieces { td with move_piece := none } rest
    else select_piece_step g pieces td rest

/-- The `ShowHighlights` arm of `turn_manager`: compute the remembered
piece's legal moves and issue a `ValidMove` marker insertion for each
square among them; `none` models the `unwrap`/`expect` panics (no
remembered piece, entity not in the query, or its square empty) and a
panic inside `moves_and_captures` itself. -/
def show_highlights (g : GameState) (inputs : TurnInputs) (td : TurnData) : Option TurnOutput :=
  match td.move_piece with
  | none => none
  | some e =>
    match inputs.piece_query.find? (fun x => decide (x.1 = e)) with
    | none => none
    | some (_, piece_pos) =>
      match g.get_pos piece_pos with
      | none => none
      | some piece =>
        match g.moves_and_captures piece piece_pos with
        | none => none
        | some mc =>
          some ⟨g, { td with state := TurnState.SelectTarget },
            (inputs.square_query.filter
              (fun x => mc.1.any (fun p => decide (p = x.2)) ||
                mc.2.any (fun p => decide (p = x.2)))).map
              (fun x => Command.insertValidMove x.1), []⟩

/-- The friendly-target scan of the `SelectTarget` arm (`find_map` over the
piece query); the outer `none` again models the `expect` panic on a stale
entity. -/
def find_friendly (g : GameState) (target : BoardPosition) :
    List (Entity × BoardPosition) → Option (Option Entity)
  | [] => some none
  | (e, ppos) :: rest =>
    match g.get_pos ppos with
    | none => none
    | some piece =>
      if target = ppos ∧ g.curr_player = piece.color then some (some e)
      else find_friendly g target rest

/-- The `SelectTarget` arm of `turn_manager`: process the queued click
events in arrival order. A friendly target re-selects, a highlighted
target commits the move (`apply_movement`, `Captured` markers, a
`PieceMoveEvent`), anything else abandons the selection; every left click
additionally clears the `ValidMove` markers. -/
def select_target_step (inputs : TurnInputs) :
    List ClickSquareEvent → GameState → TurnData → List Command → List PieceMoveEvent →
    Option (GameState × TurnData × List Command × List PieceMoveEvent)
  | [], g, td, cmds, evs => some (g, td, cmds, evs)
  | ev :: rest, g, td, cmds, evs =>
    if ev.kind = MouseButton.Left then
      match ev.board_pos with
      | some target_pos =>
        match find_friendly g target_pos inputs.piece_query with
        | none => none
        | some (some e) =>
          select_target_step inputs rest g
            { td with move_piece := some e, state := TurnState.ShowHighlights }
            (cmds ++ inputs.valid_moves_query.map (fun x => Command.removeValidMove x.1)) evs
        | some none =>
          if inputs.valid_moves_query.any (fun x => decide (x.2 = target_pos)) then
            match td.move_piece with
            | none => none
            | some piece_ent =>
              match inputs.piece_query.find? (fun x => decide (x.1 = piece_ent)) with
              | none => none
              | some (_, source) =>
                match g.apply_movement source target_pos with
                | none => none
                | some (g2, captured) =>
                  select_target_step inputs rest g2
                    { td with
                        move_target := some target_pos
                        state := TurnState.AnimateMove }
                    (cmds ++
                      (if captured.isSome then
                        (inputs.piece_query.filter
                          (fun x => decide (x.2 = target_pos))).map
                          (fun x => Command.insertCaptured x.1)
                      else []) ++
                      inputs.valid_moves_query.map (fun x => Command.removeValidMove x.1))
                    (evs ++ [⟨piece_ent, source, target_pos⟩])
          else
            select_target_step inputs rest g
              { td with move_piece := none, state := TurnState.SelectPiece }
              (cmds ++ inputs.valid_moves_query.map (fun x => Command.removeValidMove x.1)) evs
      | none =>
        select_target_step inputs rest g
          { td with move_piece := none, state := TurnState.SelectPiece }
          (cmds ++ inputs.valid_moves_query.map (fun x => Command.removeValidMove x.1)) evs
    else select_target_step inputs rest g td cmds evs

/-- The `AnimateMove` arm of `turn_manager`: wait for a completion event
matching the moved piece's entity; `none` models the `unwrap` panic when
an event arrives with no piece remembered. -/
def animate_step : TurnData → List PieceAnimCompleteEvent → Option TurnData
  | td, [] => some td
  | td, ev :: rest =>
    match td.move_piece with
    | none => none
    | some e =>
      animate_step
        (if ev.entity = e then { td with state := TurnState.CheckCapture } else td) rest

/-- The turn state machine, `turn_manager` in `game.rs`: one system
invocation. Returns the updated game state and turn data plus the issued
ECS commands and move events; `none` models any panic path. The first
guard returns immediately, before evaluating any state, whenever
`game_over` is set. -/
def turn_manager (inputs : TurnInputs) (g : GameState) (td : TurnData) : Option TurnOutput :=
  if g.game_over.isSome then some ⟨g, td, [], []⟩
  else
    match td.state with
    | TurnState.CheckForGameOver =>
      match g.no_legal_moves with
      | none => none
      | some true =>
        match g.is_in_check g.curr_player with
        | none => none
        | some true =>
          some ⟨{ g with game_over := some (GameOver.Checkmate g.curr_player.next) },
            td, [], []⟩
        | some false => some ⟨{ g with game_over := some GameOver.Stalemate }, td, [], []⟩
      | some false => some ⟨g, { td with state := TurnState.SelectPiece }, [], []⟩
    | TurnState.SelectPiece =>
      (select_piece_step g inputs.piece_query td inputs.click_square_events).map
        (fun td2 => ⟨g, td2, [], []⟩)
    | TurnState.ShowHighlights => show_highlights g inputs td
    | TurnState.SelectTarget =>
      (select_target_step inputs inputs.click_square_events g td [] []).map
        (fun r => ⟨r.1, r.2.1, r.2.2.1, r.2.2.2⟩)
    | TurnState.AnimateMove =>
      (animate_step td inputs.anim_complete_events).map (fun td2 => ⟨g, td2, [], []⟩)
    | TurnState.CheckCapture =>
      some ⟨g, { td with state := TurnState.EndTurn },
        inputs.captured_query.map (fun e => Command.despawn e), []⟩
    | TurnState.EndTurn => some ⟨g.advance_turn, td.reset, [], []⟩

theorem mem_lines_along_moves {g : GameState} {piece : Piece} {f : BoardPosition}
    {ds : List (Int × Int)} {p : BoardPosition}
    (h : p ∈ (g.lines_along piece f ds).1) :
    ∃ d ∈ ds, p ∈ (g.check_line piece f d).1 := by
  induction ds with
  | nil => simp [GameState.lines_along] at h
  | cons d rest ih =>
    rw [GameState.lines_along] at h
    rcases List.mem_append.mp h with h1 | h1
    · exact ⟨d, List.mem_cons_self _ _, h1⟩
    · obtain ⟨d', hd', hp⟩ := ih h1
      exact ⟨d', List.mem_cons_of_mem _ hd', hp⟩

theorem mem_lines_along_captures {g : GameState} {piece : Piece} {f : BoardPosition}
    {ds : List (Int × Int)} {p : BoardPosition}
    (h : p ∈ (g.lines_along piece f ds).2) :
    ∃ d ∈ ds, p ∈ (g.check_line piece f d).2 := by
  induction ds with
  | nil => simp [GameState.lines_along] at h
  | cons d rest ih =>
    rw [GameState.lines_along] at h
    rcases List.mem_append.mp h with h1 | h1
    · exact ⟨d, List.mem_cons_self _ _, h1⟩
    · obtain ⟨d', hd', hp⟩ := ih h1
      exact ⟨d', List.mem_cons_of_mem _ hd', hp⟩

theorem check_line_moves_classify {g : GameState} {piece : Piece} {f : BoardPosition}
    {d : Int × Int} {p : BoardPosition} (h : p ∈ (g.check_line piece f d).1) :
    g.is_move_or_capture piece p = some MoveCapture.Move := by
  obtain ⟨j, hj1, hj2, rfl, hall⟩ :=
    (mem_check_line_fuel_moves g piece d 16 f p).mp h
  exact hall j hj1 le_rfl

theorem check_line_captures_classify {g : GameState} {piece : Piece} {f : BoardPosition}
    {d : Int × Int} {p : BoardPosition} (h : p ∈ (g.check_line piece f d).2) :
    g.is_move_or_capture piece p = some MoveCapture.Capture := by
  obtain ⟨j, hj1, hj2, rfl, hcap, -⟩ :=
    (mem_check_line_fuel_captures g piece d 16 f p).mp h
  exact hcap

/-- Every position in a pseudo moves list is an in-bounds empty square. -/
theorem pseudo_moves_sound {g : GameState} {piece : Piece} {pos p : BoardPosition}
    (h : p ∈ (g.pseudo_moves_and_captures piece pos).1) :
    p.is_in_bounds = true ∧ g.get_pos p = none := by
  obtain ⟨color, kind⟩ := piece
  cases kind with
  | King =>
    rw [GameState.pseudo_moves_and_captures] at h
    exact (is_move_or_capture_eq_move_iff _ _ _).mp (mem_save_all_moves h).2
  | Queen =>
    rw [GameState.pseudo_moves_and_captures] at h
    obtain ⟨d, -, hp⟩ := mem_lines_along_moves h
    exact (is_move_or_capture_eq_move_iff _ _ _).mp (check_line_moves_classify hp)
  | Rook =>
    rw [GameState.pseudo_moves_and_captures] at h
    obtain ⟨d, -, hp⟩ := mem_lines_along_moves h
    exact (is_move_or_capture_eq_move_iff _ _ _).mp (check_line_moves_classify hp)
  | Bishop =>
    rw [GameState.pseudo_moves_and_captures] at h
    obtain ⟨d, -, hp⟩ := mem_lines_along_moves h
    exact (is_move_or_capture_eq_move_iff _ _ _).mp (check_line_moves_classify hp)
  | Knight =>
    rw [GameState.pseudo_moves_and_captures] at h
    exact (is_move_or_capture_eq_move_iff _ _ _).mp (mem_save_all_moves h).2
  | Pawn has_moved =>
    simp only [GameState.pseudo_moves_and_captures] at h
    rcases List.mem_append.mp h with h1 | h1
    · by_cases hc :
        (pos + (pawnDir color, (0 : Int))).is_in_bounds = true ∧
          (g.get_pos (pos + (pawnDir color, (0 : Int)))).isNone = true
      · rw [if_pos (by simp [hc.1, hc.2])] at h1
        rcases List.mem_singleton.mp h1 with rfl
        exact ⟨hc.1, Option.isNone_iff_eq_none.mp hc.2⟩
      · rw [if_neg (by simpa using hc)] at h1
        simp at h1
    · by_cases hc :
        has_moved = false ∧
          (pos + (pawnDir color * 2, (0 : Int))).is_in_bounds = true ∧
          (g.get_pos (pos + (pawnDir color * 2, (0 : Int)))).isNone = true
      · rw [if_pos (by simp [hc.1, hc.2.1, hc.2.2])] at h1
        rcases List.mem_singleton.mp h1 with rfl
        exact ⟨hc.2.1, Option.isNone_iff_eq_none.mp hc.2.2⟩
      · rw [if_neg ?hng] at h1
        · simp at h1
        case hng =>
          intro hcon
          apply hc
          simp only [Bool.and_eq_true, Bool.not_eq_true'] at hcon
          exact ⟨hcon.1, hcon.2.1, hcon.2.2⟩

/-- Every position in a pseudo captures list is an in-bounds square
occupied by a piece of the opposite color. -/
theorem pseudo_captures_sound {g : GameState} {piece : Piece} {pos p : BoardPosition}
    (h : p ∈ (g.pseudo_moves_and_captures piece pos).2) :
    p.is_in_bounds = true ∧ ∃ q, g.get_pos p = some q ∧ q.color ≠ piece.color := by
  obtain ⟨color, kind⟩ := piece
  cases kind with
  | King =>
    rw [GameState.pseudo_moves_and_captures] at h
    exact (is_move_or_capture_eq_capture_iff _ _ _).mp (mem_save_all_captures h).2
  | Queen =>
    rw [GameState.pseudo_moves_and_captures] at h
    obtain ⟨d, -, hp⟩ := mem_lines_along_captures h
    exact (is_move_or_capture_eq_capture_iff _ _ _).mp (check_line_captures_classify hp)
  | Rook =>
    rw [GameState.pseudo_moves_and_captures] at h
    obtain ⟨d, -, hp⟩ := mem_lines_along_captures h
    exact (is_move_or_capture_eq_capture_iff _ _ _).mp (check_line_captures_classify hp)
  | Bishop =>
    rw [GameState.pseudo_moves_and_captures] at h
    obtain ⟨d, -, hp⟩ := mem_lines_along_captures h
    exact (is_move_or_capture_eq_capture_iff _ _ _).mp (check_line_captures_classify hp)
  | Knight =>
    rw [GameState.pseudo_moves_and_captures] at h
    exact (is_move_or_capture_eq_capture_iff _ _ _).mp (mem_save_all_captures h).2
  | Pawn has_moved =>
    simp only [GameState.pseudo_moves_and_captures] at h
    obtain ⟨c, hc, hsome⟩ := List.mem_filterMap.mp h
    by_cases hb : (pos + (pawnDir color, c)).is_in_bounds = true
    · rw [if_pos hb] at hsome
      rcases hq : g.get_pos (pos + (pawnDir color, c)) with _ | q
      · rw [hq] at hsome
        exact Option.noConfusion hsome
      · rw [hq] at hsome
        dsimp only at hsome
        by_cases hcol : q.color ≠ color
        · rw [if_pos hcol] at hsome
          rcases Option.some.inj hsome with rfl
          exact ⟨hb, q, hq, hcol⟩
        · rw [if_neg hcol] at hsome
          exact Option.noConfusion hsome
    · rw [if_neg hb] at hsome
      exact Option.noConfusion hsome

/-- C10: every pseudo move is an in-bounds empty square, and every pseudo
capture is an in-bounds square holding a piece of the color opposite to
the queried piece; in particular a friendly-occupied square appears in
neither list. -/
theorem pseudo_results_classified (g : GameState) (piece : Piece) (pos : BoardPosition)
    (_hpos : pos.is_in_bounds = true) (p : BoardPosition) :
    (p ∈ (g.pseudo_moves_and_captures piece pos).1 →
      p.is_in_bounds = true ∧ g.get_pos p = none) ∧
    (p ∈ (g.pseudo_moves_and_captures piece pos).2 →
      p.is_in_bounds = true ∧ ∃ q, g.get_pos p = some q ∧ q.color ≠ piece.color) :=
  ⟨fun h => pseudo_moves_sound h, fun h => pseudo_captures_sound h⟩

/-- Board builder for concrete test positions: an association list of
occupied squares. -/
def boardOf (l : List (BoardPosition × Piece)) : Fin 8 → Fin 8 → Option Piece :=
  fun r c =>
    (l.find? (fun x =>
      decide (x.1.row = ((r : Nat) : Int) ∧ x.1.col = ((c : Nat) : Int)))).map
      (fun x => x.2)

theorem mem_ite_cond_singleton (c : Bool) (x p : BoardPosition) :
    (p ∈ if c then [x] else []) ↔ c = true ∧ p = x := by
  cases c <;> simp

/-- C1 (amended): the pawn's pseudo moves are exactly the forward-one
square when it is in bounds and empty, plus the forward-two square when
`has_moved` is false and that square is in bounds and empty — the
intermediate square is not consulted by the code; the pseudo captures are
exactly the in-bounds forward-diagonal squares holding an enemy piece, and
diagonal squares never appear as moves. -/
theorem pawn_pseudo_spec (g : GameState) (color : PieceColor) (has_moved : Bool)
    (pos : BoardPosition) (_hpos : pos.is_in_bounds = true) (p : BoardPosition) :
    (p ∈ (g.pseudo_moves_and_captures ⟨color, PieceKind.Pawn has_moved⟩ pos).1 ↔
      (p = pos + (pawnDir color, (0 : Int)) ∧ p.is_in_bounds = true ∧
        g.get_pos p = none) ∨
      (p = pos + (pawnDir color * 2, (0 : Int)) ∧ has_moved = false ∧
        p.is_in_bounds = true ∧ g.get_pos p = none)) ∧
    (p ∈ (g.pseudo_moves_and_captures ⟨color, PieceKind.Pawn has_moved⟩ pos).2 ↔
      ∃ c, (c = -1 ∨ c = 1) ∧ p = pos + (pawnDir color, c) ∧ p.is_in_bounds = true ∧
        ∃ q, g.get_pos p = some q ∧ q.color ≠ color) := by
  constructor
  · simp only [GameState.pseudo_moves_and_captures]
    rw [List.mem_append, mem_ite_cond_singleton, mem_ite_cond_singleton]
    simp only [Bool.and_eq_true, Bool.not_eq_true', Option.isNone_iff_eq_none]
    constructor
    · rintro (⟨⟨hb, hn⟩, rfl⟩ | ⟨⟨hm, hb, hn⟩, rfl⟩)
      · exact Or.inl ⟨rfl, hb, hn⟩
      · exact Or.inr ⟨rfl, hm, hb, hn⟩
    · rintro (⟨rfl, hb, hn⟩ | ⟨rfl, hm, hb, hn⟩)
      · exact Or.inl ⟨⟨hb, hn⟩, rfl⟩
      · exact Or.inr ⟨⟨hm, hb, hn⟩, rfl⟩
  · simp only [GameState.pseudo_moves_and_captures]
    rw [List.mem_filterMap]
    constructor
    · rintro ⟨c, hc, hsome⟩
      refine ⟨c, by simpa using hc, ?_⟩
      by_cases hb : (pos + (pawnDir color, c)).is_in_bounds = true
      · rw [if_pos hb] at hsome
        rcases hq : g.get_pos (pos + (pawnDir color, c)) with _ | q
        · rw [hq] at hsome
          exact Option.noConfusion hsome
        · rw [hq] at hsome
          dsimp only at hsome
          by_cases hcol : q.color ≠ color
          · rw [if_pos hcol] at hsome
            rcases Option.some.inj hsome with rfl
            exact ⟨rfl, hb, q, hq, hcol⟩
          · rw [if_neg hcol] at hsome
            exact Option.noConfusion hsome
      · rw [if_neg hb] at hsome
        exact Option.noConfusion hsome
    · rintro ⟨c, hc, rfl, hb, q, hq, hcol⟩
      refine ⟨c, by simpa using hc, ?_⟩
      rw [if_pos hb, hq]
      dsimp only
      rw [if_pos hcol]

/-- A board with an unmoved white pawn on E2 and a black rook directly in
front of it on E3, squares E4 and beyond empty. -/
def blockedPawnState : GameState :=
  ⟨boardOf [(⟨1, 4⟩, ⟨PieceColor.White, PieceKind.Pawn false⟩),
    (⟨2, 4⟩, ⟨PieceColor.Black, PieceKind.Rook⟩)], PieceColor.White, none⟩

/-- C1 counterexample: the forward-two square E4 is returned as a pseudo
move for the blocked pawn even though the intermediate square E3 is
occupied, so the claim's "forward-two iff the intermediate and destination
squares are both empty" fails on the code. -/
theorem pawn_two_step_ignores_intermediate_cex :
    (⟨1, 4⟩ : BoardPosition).is_in_bounds = true ∧
    blockedPawnState.get_pos ⟨2, 4⟩ = some ⟨PieceColor.Black, PieceKind.Rook⟩ ∧
    (⟨3, 4⟩ : BoardPosition) ∈
      (blockedPawnState.pseudo_moves_and_captures
        ⟨PieceColor.White, PieceKind.Pawn false⟩ ⟨1, 4⟩).1 := by decide

theorem pawn_pseudo_spec_witness :
    (⟨1, 4⟩ : BoardPosition).is_in_bounds = true ∧
    (((⟨2, 4⟩ : BoardPosition) ∈
        (blockedPawnState.pseudo_moves_and_captures
          ⟨PieceColor.White, PieceKind.Pawn false⟩ ⟨1, 4⟩).1 ↔
      ((⟨2, 4⟩ : BoardPosition) = (⟨1, 4⟩ : BoardPosition) + (pawnDir PieceColor.White, (0 : Int)) ∧
        (⟨2, 4⟩ : BoardPosition).is_in_bounds = true ∧
        blockedPawnState.get_pos ⟨2, 4⟩ = none) ∨
      ((⟨2, 4⟩ : BoardPosition) = (⟨1, 4⟩ : BoardPosition) + (pawnDir PieceColor.White * 2, (0 : Int)) ∧
        false = false ∧
        (⟨2, 4⟩ : BoardPosition).is_in_bounds = true ∧
        blockedPawnState.get_pos ⟨2, 4⟩ = none)) ∧
    ((⟨2, 4⟩ : BoardPosition) ∈
        (blockedPawnState.pseudo_moves_and_captures
          ⟨PieceColor.White, PieceKind.Pawn false⟩ ⟨1, 4⟩).2 ↔
      ∃ c, (c = -1 ∨ c = 1) ∧
        (⟨2, 4⟩ : BoardPosition) = (⟨1, 4⟩ : BoardPosition) + (pawnDir PieceColor.White, c) ∧
        (⟨2, 4⟩ : BoardPosition).is_in_bounds = true ∧
        ∃ q, blockedPawnState.get_pos ⟨2, 4⟩ = some q ∧
          q.color ≠ PieceColor.White)) :=
  ⟨by decide, pawn_pseudo_spec blockedPawnState PieceColor.White false ⟨1, 4⟩
    (by decide) ⟨2, 4⟩⟩

theorem after_move_of_ne_pawn_false {p : Piece} (h : p.kind ≠ PieceKind.Pawn false) :
    p.after_move = p := by
  obtain ⟨c, k⟩ := p
  cases k with
  | Pawn b =>
    cases b with
    | false => exact absurd rfl h
    | true => rfl
  | King => rfl
  | Queen => rfl
  | Rook => rfl
  | Bishop => rfl
  | Knight => rfl

theorem after_move_of_pawn_false {p : Piece} (h : p.kind = PieceKind.Pawn false) :
    p.after_move = { p with kind := PieceKind.Pawn true } := by
  obtain ⟨c, k⟩ := p
  dsimp only at h
  subst h
  rfl

theorem after_move_after_move (p : Piece) : p.after_move.after_move = p.after_move := by
  obtain ⟨c, k⟩ := p
  cases k with
  | Pawn b => cases b <;> rfl
  | King => rfl
  | Queen => rfl
  | Rook => rfl
  | Bishop => rfl
  | Knight => rfl

/-- The successful `apply_movement` unfolds to the double `set_pos` update
and returns the previous occupant of the target square. -/
theorem apply_movement_eq {g : GameState} {from_pos to_pos : BoardPosition} {piece : Piece}
    (hfrom : g.get_pos from_pos = some piece) (hto : to_pos.is_in_bounds = true) :
    g.apply_movement from_pos to_pos =
      some ((((g.set_pos from_pos none).1).set_pos to_pos (some piece.after_move)).1,
        g.get_pos to_pos) := by
  have hfb := in_bounds_of_get_pos_some hfrom
  unfold GameState.apply_movement
  rw [hfrom]
  simp [hfb, hto]

/-- Cell-level description of the board after a successful
`apply_movement`. -/
theorem apply_movement_get {g : GameState} {from_pos to_pos : BoardPosition} {piece : Piece}
    (hfrom : g.get_pos from_pos = some piece) (hto : to_pos.is_in_bounds = true)
    (q : BoardPosition) :
    ((((g.set_pos from_pos none).1).set_pos to_pos (some piece.after_move)).1).get_pos q =
      if q = to_pos then some piece.after_move
      else if q = from_pos then none else g.get_pos q := by
  have hfb := in_bounds_of_get_pos_some hfrom
  rw [get_pos_set_pos, get_pos_set_pos]
  by_cases h1 : q = to_pos
  · simp [h1, hto]
  · by_cases h2 : q = from_pos <;> simp [h1, h2, hfb, hto]

/-- C8: `apply_movement` takes the fatal assertion path (modelled `none`)
exactly when the source is out of bounds, the target is out of bounds, or
the source square is empty; under the precondition it always returns a
value. -/
theorem apply_movement_none_iff (g : GameState) (from_pos to_pos : BoardPosition) :
    g.apply_movement from_pos to_pos = none ↔
      (¬from_pos.is_in_bounds = true ∨ ¬to_pos.is_in_bounds = true ∨
        g.get_pos from_pos = none) := by
  unfold GameState.apply_movement
  by_cases h1 : from_pos.is_in_bounds = true
  · by_cases h2 : to_pos.is_in_bounds = true
    · cases hg : g.get_pos from_pos with
      | none => simp [h1, h2, hg]
      | some piece => simp [h1, h2, hg]
    · simp [h1, h2]
  · simp [h1]

/-- C5 (amended): a successful `apply_movement` stores the moving piece at
`to` — a pawn whose `has_moved` was false now has it true, every other
piece unchanged — returns the previous occupant of `to`, and empties the
`from` cell whenever `from ≠ to` (when `from = to` the single cell ends up
holding the moving piece, so it is not empty). -/
theorem apply_movement_cell_spec (g : GameState) (from_pos to_pos : BoardPosition)
    (piece : Piece) (hfrom : g.get_pos from_pos = some piece)
    (hto : to_pos.is_in_bounds = true) :
    ∃ g2, g.apply_movement from_pos to_pos = some (g2, g.get_pos to_pos) ∧
      (piece.kind = PieceKind.Pawn false →
        g2.get_pos to_pos = some { piece with kind := PieceKind.Pawn true }) ∧
      (piece.kind ≠ PieceKind.Pawn false → g2.get_pos to_pos = some piece) ∧
      (from_pos ≠ to_pos → g2.get_pos from_pos = none) := by
  refine ⟨_, apply_movement_eq hfrom hto, ?_, ?_, ?_⟩
  · intro hk
    rw [apply_movement_get hfrom hto, if_pos rfl, after_move_of_pawn_false hk]
  · intro hk
    rw [apply_movement_get hfrom hto, if_pos rfl, after_move_of_ne_pawn_false hk]
  · intro hne
    rw [apply_movement_get hfrom hto, if_neg (fun h => hne h), if_pos rfl]

/-- White rook used by the concrete scenarios. -/
def wRook : Piece := ⟨PieceColor.White, PieceKind.Rook⟩

/-- Black rook used by the concrete scenarios. -/
def bRook : Piece := ⟨PieceColor.Black, PieceKind.Rook⟩

/-- White unmoved pawn used by the concrete scenarios. -/
def wPawn0 : Piece := ⟨PieceColor.White, PieceKind.Pawn false⟩

/-- A state with a single white rook on A1. -/
def rookState : GameState := ⟨boardOf [(⟨0, 0⟩, wRook)], PieceColor.White, none⟩

theorem apply_movement_cell_spec_witness :
    rookState.get_pos ⟨0, 0⟩ = some wRook ∧
    (⟨0, 3⟩ : BoardPosition).is_in_bounds = true ∧
    ∃ g2, rookState.apply_movement ⟨0, 0⟩ ⟨0, 3⟩ = some (g2, rookState.get_pos ⟨0, 3⟩) ∧
      (wRook.kind = PieceKind.Pawn false →
        g2.get_pos ⟨0, 3⟩ = some { wRook with kind := PieceKind.Pawn true }) ∧
      (wRook.kind ≠ PieceKind.Pawn false → g2.get_pos ⟨0, 3⟩ = some wRook) ∧
      ((⟨0, 0⟩ : BoardPosition) ≠ ⟨0, 3⟩ → g2.get_pos ⟨0, 0⟩ = none) :=
  ⟨by decide, by decide,
    apply_movement_cell_spec rookState ⟨0, 0⟩ ⟨0, 3⟩ wRook (by decide) (by decide)⟩

/-- C5 counterexample: with `from = to` (source occupied, both in bounds)
the call succeeds and the `from` cell still holds the moving piece, so
the claim's "the cell at from becomes empty" fails as stated. -/
theorem apply_movement_from_eq_to_cex :
    rookState.get_pos ⟨0, 0⟩ = some wRook ∧
    (⟨0, 0⟩ : BoardPosition).is_in_bounds = true ∧
    (rookState.apply_movement ⟨0, 0⟩ ⟨0, 0⟩).map (fun r => r.1.get_pos ⟨0, 0⟩) =
      some (some wRook) := by decide

/-- C7 (amended): when the target square is initially empty, moving from
`from` to `to` and back restores the original occupancy of both cells,
except that the moved piece's pawn `has_moved` flag is set one-way: the
piece back at `from` is `after_move piece` (identical to `piece` unless
`piece` was an unmoved pawn, which comes back with `has_moved = true`). -/
theorem apply_movement_round_trip (g : GameState) (from_pos to_pos : BoardPosition)
    (piece : Piece) (hfrom : g.get_pos from_pos = some piece)
    (hto_b : to_pos.is_in_bounds = true) (hto : g.get_pos to_pos = none) :
    ∃ g1 g2,
      g.apply_movement from_pos to_pos = some (g1, none) ∧
      g1.apply_movement to_pos from_pos = some (g2, none) ∧
      g2.get_pos from_pos = some piece.after_move ∧
      g2.get_pos to_pos = none ∧
      (piece.kind ≠ PieceKind.Pawn false → piece.after_move = piece) ∧
      (piece.kind = PieceKind.Pawn false →
        piece.after_move = { piece with kind := PieceKind.Pawn true }) := by
  have hfb := in_bounds_of_get_pos_some hfrom
  have hne : from_pos ≠ to_pos := by
    intro h
    rw [h, hto] at hfrom
    exact Option.noConfusion hfrom
  have h1 := apply_movement_eq hfrom hto_b
  rw [hto] at h1
  set g1 := (((g.set_pos from_pos none).1).set_pos to_pos (some piece.after_move)).1 with hg1
  have hget1 := apply_movement_get hfrom hto_b
  have hg1to : g1.get_pos to_pos = some piece.after_move := by
    rw [hget1, if_pos rfl]
  have hg1from : g1.get_pos from_pos = none := by
    rw [hget1, if_neg hne, if_pos rfl]
  have h2 := apply_movement_eq hg1to hfb
  rw [hg1from] at h2
  set g2 := (((g1.set_pos to_pos none).1).set_pos from_pos
    (some piece.after_move.after_move)).1 with hg2
  have hget2 := apply_movement_get hg1to hfb
  refine ⟨g1, g2, h1, h2, ?_, ?_, after_move_of_ne_pawn_false, after_move_of_pawn_false⟩
  · rw [hget2, if_pos rfl, after_move_after_move]
  · rw [hget2, if_neg (fun h => hne h.symm), if_pos rfl]

theorem apply_movement_round_trip_witness :
    rookState.get_pos ⟨0, 0⟩ = some wRook ∧
    (⟨0, 3⟩ : BoardPosition).is_in_bounds = true ∧
    rookState.get_pos ⟨0, 3⟩ = none ∧
    ∃ g1 g2,
      rookState.apply_movement ⟨0, 0⟩ ⟨0, 3⟩ = some (g1, none) ∧
      g1.apply_movement ⟨0, 3⟩ ⟨0, 0⟩ = some (g2, none) ∧
      g2.get_pos ⟨0, 0⟩ = some wRook.after_move ∧
      g2.get_pos ⟨0, 3⟩ = none ∧
      (wRook.kind ≠ PieceKind.Pawn false → wRook.after_move = wRook) ∧
      (wRook.kind = PieceKind.Pawn false →
        wRook.after_move = { wRook with kind := PieceKind.Pawn true }) :=
  ⟨by decide, by decide, by decide,
    apply_movement_round_trip rookState ⟨0, 0⟩ ⟨0, 3⟩ wRook (by decide) (by decide) (by decide)⟩

/-- A state with a white rook on A1 and a black rook on A8 (target
occupied), used to refute the unconditional round-trip claim. -/
def twoRookState : GameState :=
  ⟨boardOf [(⟨0, 0⟩, wRook), (⟨0, 7⟩, bRook)], PieceColor.White, none⟩

/-- C7 counterexample: with the target initially occupied, the round trip
completes but leaves the target square empty — the captured piece is not
restored, so occupancy of both cells is not restored as the claim
states. -/
theorem apply_movement_round_trip_cex :
    twoRookState.get_pos ⟨0, 0⟩ = some wRook ∧
    twoRookState.get_pos ⟨0, 7⟩ = some bRook ∧
    ((twoRookState.apply_movement ⟨0, 0⟩ ⟨0, 7⟩).bind
      (fun r => r.1.apply_movement ⟨0, 7⟩ ⟨0, 0⟩)).map (fun r => r.1.get_pos ⟨0, 7⟩) =
      some none := by decide

/-- C9: once `game_over` is set, one invocation of the turn machine
returns at the early guard with the game state and turn data unchanged,
no commands, and no move events — for every input queue, so all click
events are ignored; in particular `game_over` itself is never changed
again. -/
theorem turn_manager_inert_when_game_over (inputs : TurnInputs) (g : GameState)
    (td : TurnData) (go : GameOver) (h : g.game_over = some go) :
    turn_manager inputs g td = some ⟨g, td, [], []⟩ := by
  unfold turn_manager
  rw [h]
  rfl

/-- A finished (stalemate) state used as the C9 witness scenario. -/
def overState : GameState :=
  ⟨boardOf [(⟨0, 0⟩, wRook)], PieceColor.White, some GameOver.Stalemate⟩

/-- Busy inputs for the C9 witness: a left click on an own piece that
would, in any live state, trigger a transition. -/
def busyInputs : TurnInputs :=
  ⟨[⟨MouseButton.Left, some ⟨0, 0⟩⟩], [(0, ⟨0, 0⟩)], [0], [(1, ⟨0, 0⟩)], [(1, ⟨0, 0⟩)],
    [⟨0⟩]⟩

theorem turn_manager_inert_when_game_over_witness :
    overState.game_over = some GameOver.Stalemate ∧
    turn_manager busyInputs overState ⟨TurnState.SelectPiece, none, none⟩ =
      some ⟨overState, ⟨TurnState.SelectPiece, none, none⟩, [], []⟩ :=
  ⟨rfl, turn_manager_inert_when_game_over busyInputs overState
    ⟨TurnState.SelectPiece, none, none⟩ GameOver.Stalemate rfl⟩

/-- C2: in `CheckForGameOver` (with `game_over` not yet set, otherwise the
machine would not evaluate the state), whenever the game-over scan
completes without panicking — `no_legal_moves` produces a Boolean `nl`,
and, if `nl` is true, `is_in_check` produces a Boolean too — the machine
classifies the position: no legal moves and in check sets `Checkmate` for
the color opposite to the current player; no legal moves and not in check
sets `Stalemate`; otherwise `game_over` stays unset and the state advances
to `SelectPiece`. No commands or move events are issued. States on which
the scan panics (no king of the scanned color) are excluded by the
hypotheses, because there the program classifies nothing. -/
theorem turn_manager_check_for_game_over (inputs : TurnInputs) (g : GameState)
    (td : TurnData) (nl chk : Bool) (hgo : g.game_over = none)
    (hst : td.state = TurnState.CheckForGameOver)
    (hnlm : g.no_legal_moves = some nl)
    (hchk : nl = true → g.is_in_check g.curr_player = some chk) :
    turn_manager inputs g td =
      some (if nl then
              if chk then
                ⟨{ g with game_over := some (GameOver.Checkmate g.curr_player.next) },
                  td, [], []⟩
              else ⟨{ g with game_over := some GameOver.Stalemate }, td, [], []⟩
            else ⟨g, { td with state := TurnState.SelectPiece }, [], []⟩) := by
  cases nl with
  | false =>
    unfold turn_manager
    rw [hgo, hst, hnlm]
    simp
  | true =>
    unfold turn_manager
    rw [hgo, hst, hnlm, hchk rfl]
    cases chk <;> simp

/-- White king used by the concrete scenarios. -/
def wKing : Piece := ⟨PieceColor.White, PieceKind.King⟩

/-- The classic stalemate corner: White king on A1, Black queen on B3,
White to move. The king has three in-bounds empty neighbours, each of
which the queen covers, and the king is not currently attacked. -/
def stalemateState : GameState :=
  ⟨boardOf [(⟨0, 0⟩, wKing), (⟨2, 1⟩, ⟨PieceColor.Black, PieceKind.Queen⟩)],
    PieceColor.White, none⟩

/-- Quiet inputs for the C2 witness. -/
def quietInputs : TurnInputs := ⟨[], [], [], [], [], []⟩

theorem turn_manager_check_for_game_over_witness :
    stalemateState.game_over = none ∧
    (⟨TurnState.CheckForGameOver, none, none⟩ : TurnData).state =
      TurnState.CheckForGameOver ∧
    stalemateState.no_legal_moves = some true ∧
    (true = true →
      stalemateState.is_in_check stalemateState.curr_player = some false) ∧
    turn_manager quietInputs stalemateState ⟨TurnState.CheckForGameOver, none, none⟩ =
      some (if true then
              if false then
                ⟨{ stalemateState with
                    game_over := some (GameOver.Checkmate stalemateState.curr_player.next) },
                  ⟨TurnState.CheckForGameOver, none, none⟩, [], []⟩
              else ⟨{ stalemateState with game_over := some GameOver.Stalemate },
                ⟨TurnState.CheckForGameOver, none, none⟩, [], []⟩
            else ⟨stalemateState,
              ⟨TurnState.SelectPiece, none, none⟩, [], []⟩) :=
  ⟨rfl, rfl, by decide, by decide,
    turn_manager_check_for_game_over quietInputs stalemateState
      ⟨TurnState.CheckForGameOver, none, none⟩ true false rfl rfl (by decide) (by decide)⟩

/-- A state used as the C10 witness scenario: a white rook on A1, a black
pawn on A4. -/
def rookTargetState : GameState :=
  ⟨boardOf [(⟨0, 0⟩, wRook), (⟨0, 3⟩, ⟨PieceColor.Black, PieceKind.Pawn true⟩)],
    PieceColor.White, none⟩

/-- C6: for any direction of the engine's ray sets (rook: first four;
bishop: last four; queen: all eight of `queenDirections`) and an in-bounds
origin, the moves of `check_line` are exactly the consecutive in-bounds
empty squares outward from the origin; a capture is exactly the first
probed square that is in bounds and holds an enemy piece, with every
earlier probed square in bounds and empty (so the ray stops at the first
off-board or occupied square and a friendly blocker is never recorded);
and the walk is independent of the fuel once it is at least 9, i.e. the
Rust loop terminates. -/
theorem check_line_ray_spec (g : GameState) (piece : Piece) (from_pos : BoardPosition)
    (d : Int × Int) (hd : d ∈ queenDirections) (hf : from_pos.is_in_bounds = true) :
    (∀ p, p ∈ (g.check_line piece from_pos d).1 ↔
      ∃ j, 1 ≤ j ∧ p = rayStep from_pos d j ∧
        ∀ i, 1 ≤ i → i ≤ j →
          (rayStep from_pos d i).is_in_bounds = true ∧
            g.get_pos (rayStep from_pos d i) = none) ∧
    (∀ p, p ∈ (g.check_line piece from_pos d).2 ↔
      ∃ j, 1 ≤ j ∧ p = rayStep from_pos d j ∧
        (rayStep from_pos d j).is_in_bounds = true ∧
        (∃ q, g.get_pos (rayStep from_pos d j) = some q ∧ q.color ≠ piece.color) ∧
        ∀ i, 1 ≤ i → i < j →
          (rayStep from_pos d i).is_in_bounds = true ∧
            g.get_pos (rayStep from_pos d i) = none) ∧
    (∀ fuel, 9 ≤ fuel →
      g.check_line_fuel piece from_pos d fuel = g.check_line piece from_pos d) := by
  refine ⟨?_, ?_, fun fuel h9 => check_line_fuel_eq_check_line g piece hd hf h9⟩
  · intro p
    rw [GameState.check_line, mem_check_line_fuel_moves]
    constructor
    · rintro ⟨j, hj1, hj16, rfl, hall⟩
      exact ⟨j, hj1, rfl, fun i hi1 hij =>
        (is_move_or_capture_eq_move_iff g piece _).mp (hall i hi1 hij)⟩
    · rintro ⟨j, hj1, rfl, hall⟩
      have hj7 : j ≤ 7 := ray_in_bounds_le hd hf (hall j hj1 le_rfl).1
      exact ⟨j, hj1, by omega, rfl, fun i hi1 hij =>
        (is_move_or_capture_eq_move_iff g piece _).mpr (hall i hi1 hij)⟩
  · intro p
    rw [GameState.check_line, mem_check_line_fuel_captures]
    constructor
    · rintro ⟨j, hj1, hj16, rfl, hcap, hall⟩
      obtain ⟨hb, q, hq, hqc⟩ := (is_move_or_capture_eq_capture_iff g piece _).mp hcap
      exact ⟨j, hj1, rfl, hb, ⟨q, hq, hqc⟩, fun i hi1 hij =>
        (is_move_or_capture_eq_move_iff g piece _).mp (hall i hi1 hij)⟩
    · rintro ⟨j, hj1, rfl, hb, ⟨q, hq, hqc⟩, hall⟩
      have hj7 : j ≤ 7 := ray_in_bounds_le hd hf hb
      exact ⟨j, hj1, by omega, rfl,
        (is_move_or_capture_eq_capture_iff g piece _).mpr ⟨hb, q, hq, hqc⟩,
        fun i hi1 hij =>
          (is_move_or_capture_eq_move_iff g piece _).mpr (hall i hi1 hij)⟩

/-- Advancing the turn does not touch the board. -/
theorem advance_turn_get_pos (g : GameState) (q : BoardPosition) :
    (g.advance_turn).get_pos q = g.get_pos q := rfl

/-- If some square holds the player's king, `get_king_pos` succeeds and
returns a square holding that king. -/
theorem get_king_pos_of_king {g : GameState} {player : PieceColor} {kpos : BoardPosition}
    (hk : g.get_pos kpos = some ⟨player, PieceKind.King⟩) :
    ∃ pos', g.get_king_pos player = some pos' ∧
      g.get_pos pos' = some ⟨player, PieceKind.King⟩ := by
  have hmem : ((⟨player, PieceKind.King⟩ : Piece), kpos) ∈ g.iter_pieces :=
    (mem_iter_pieces_iff g _).mpr hk
  have hsome : (g.iter_pieces.find?
      (fun x => decide (x.1 = ⟨player, PieceKind.King⟩))).isSome := by
    rw [List.find?_isSome]
    exact ⟨_, hmem, by simp⟩
  obtain ⟨x, hx⟩ := Option.isSome_iff_exists.mp hsome
  have hpred : x.1 = (⟨player, PieceKind.King⟩ : Piece) := by
    have := List.find?_some hx
    simpa using this
  have hxget := (mem_iter_pieces_iff g x).mp (List.mem_of_find?_eq_some hx)
  rw [hpred] at hxget
  exact ⟨x.2, by rw [GameState.get_king_pos, hx, Option.map_some'], hxget⟩

/-- If some square holds the player's king, `is_in_check` does not take
the panic path. -/
theorem is_in_check_isSome_of_king {g : GameState} {player : PieceColor}
    {kpos : BoardPosition} (hk : g.get_pos kpos = some ⟨player, PieceKind.King⟩) :
    ∃ b, g.is_in_check player = some b := by
  obtain ⟨pos', hkp, -⟩ := get_king_pos_of_king hk
  refine ⟨(g.iter_pieces.filter (fun x => decide (x.1.color ≠ player))).any
      (fun x => (g.pseudo_moves_and_captures x.1 x.2).2.any
        (fun p => decide (pos' = p))), ?_⟩
  unfold GameState.is_in_check
  rw [hkp]

/-- Applying a pseudo candidate movement never removes the moving piece's
own king from the board: the candidate square is empty or enemy-occupied,
so the king either is the mover (and lands on the candidate square) or
stays where it was. -/
theorem king_survives_candidate {g : GameState} {piece occ : Piece}
    {piece_pos p kpos : BoardPosition}
    (hocc : g.get_pos piece_pos = some occ)
    (hking : g.get_pos kpos = some ⟨piece.color, PieceKind.King⟩)
    (hpin : p.is_in_bounds = true)
    (hp : g.get_pos p = none ∨ ∃ q, g.get_pos p = some q ∧ q.color ≠ piece.color) :
    ∃ kpos2,
      ((((g.set_pos piece_pos none).1).set_pos p (some occ.after_move)).1).get_pos kpos2 =
        some ⟨piece.color, PieceKind.King⟩ := by
  by_cases hkf : kpos = piece_pos
  · have hocck : occ = ⟨piece.color, PieceKind.King⟩ := by
      rw [hkf, hocc] at hking
      exact Option.some.inj hking
    refine ⟨p, ?_⟩
    rw [apply_movement_get hocc hpin p, if_pos rfl, hocck,
      after_move_of_ne_pawn_false (by simp)]
  · have hpk : p ≠ kpos := by
      rcases hp with hnone | ⟨q, hq, hqc⟩
      · intro h
        rw [h, hking] at hnone
        exact Option.noConfusion hnone
      · intro h
        rw [h, hking] at hq
        rcases Option.some.inj hq with rfl
        exact hqc rfl
    refine ⟨kpos, ?_⟩
    rw [apply_movement_get hocc hpin kpos, if_neg (fun h => hpk h.symm), if_neg hkf]
    exact hking

/-- For a pseudo candidate of a piece whose color has a king on the board
(and an occupied source square), the retain test runs to completion: the
movement applies, the simulated check query finds a king, and `sim_ok`
returns the negated check Boolean. -/
theorem sim_ok_some_of_candidate {g : GameState} {piece occ : Piece}
    {piece_pos kpos p : BoardPosition}
    (hocc : g.get_pos piece_pos = some occ)
    (hking : g.get_pos kpos = some ⟨piece.color, PieceKind.King⟩)
    (hp : p ∈ (g.pseudo_moves_and_captures piece piece_pos).1 ∨
      p ∈ (g.pseudo_moves_and_captures piece piece_pos).2) :
    ∃ st cap b, g.apply_movement piece_pos p = some (st, cap) ∧
      st.advance_turn.is_in_check piece.color = some b ∧
      g.sim_ok piece piece_pos p = some (!b) := by
  have hpin : p.is_in_bounds = true := by
    rcases hp with h | h
    · exact (pseudo_moves_sound h).1
    · exact (pseudo_captures_sound h).1
  have hclass : g.get_pos p = none ∨ ∃ q, g.get_pos p = some q ∧ q.color ≠ piece.color := by
    rcases hp with h | h
    · exact Or.inl (pseudo_moves_sound h).2
    · exact Or.inr (pseudo_captures_sound h).2
  have happ := apply_movement_eq hocc hpin
  obtain ⟨kpos2, hk2⟩ := king_survives_candidate hocc hking hpin hclass
  have hk2' :
      ((((g.set_pos piece_pos none).1).set_pos p
        (some occ.after_move)).1).advance_turn.get_pos kpos2 =
        some ⟨piece.color, PieceKind.King⟩ := hk2
  obtain ⟨b, hb⟩ := is_in_check_isSome_of_king hk2'
  refine ⟨_, _, b, happ, hb, ?_⟩
  unfold GameState.sim_ok
  rw [happ]
  dsimp only
  rw [hb]
  rfl

/-- The retain pass succeeds when the test succeeds on every element, and
keeps, in order, exactly the elements whose test is `some true`. -/
theorem retain_safe_spec {g : GameState} {piece : Piece} {piece_pos : BoardPosition} :
    ∀ {l : List BoardPosition},
      (∀ x ∈ l, (g.sim_ok piece piece_pos x).isSome = true) →
      ∃ m, g.retain_safe piece piece_pos l = some m ∧
        List.Sublist m l ∧
        (∀ p, p ∈ m ↔ p ∈ l ∧ g.sim_ok piece piece_pos p = some true) := by
  intro l
  induction l with
  | nil =>
    intro _
    exact ⟨[], rfl, List.Sublist.refl _, by simp⟩
  | cons x rest ih =>
    intro hall
    obtain ⟨keep, hk⟩ :=
      Option.isSome_iff_exists.mp (hall x (List.mem_cons_self _ _))
    obtain ⟨m', hm', hsub, hmem⟩ := ih (fun y hy => hall y (List.mem_cons_of_mem _ hy))
    cases keep with
    | true =>
      refine ⟨x :: m', ?_, hsub.cons₂ x, ?_⟩
      · rw [GameState.retain_safe, hk, hm']
        rfl
      · intro p
        constructor
        · intro h
          rcases List.mem_cons.mp h with rfl | h'
          · exact ⟨List.mem_cons_self _ _, hk⟩
          · have := (hmem p).mp h'
            exact ⟨List.mem_cons_of_mem _ this.1, this.2⟩
        · rintro ⟨hmem2, hcond⟩
          rcases List.mem_cons.mp hmem2 with rfl | h'
          · exact List.mem_cons_self _ _
          · exact List.mem_cons_of_mem _ ((hmem p).mpr ⟨h', hcond⟩)
    | false =>
      refine ⟨m', ?_, hsub.trans (List.sublist_cons_self x rest), ?_⟩
      · rw [GameState.retain_safe, hk, hm']
        rfl
      · intro p
        constructor
        · intro h
          have := (hmem p).mp h
          exact ⟨List.mem_cons_of_mem _ this.1, this.2⟩
        · rintro ⟨hmem2, hcond⟩
          rcases List.mem_cons.mp hmem2 with rfl | h'
          · rw [hk] at hcond
            exact absurd (Option.some.inj hcond) (by simp)
          · exact (hmem p).mpr ⟨h', hcond⟩

/-- C3: with the moving piece's square occupied and a king of the moving
piece's color on the board (so that no simulated `is_in_check` call
panics — on states violating this the Rust program panics inside the
`retain` closure and returns nothing), `moves_and_captures` succeeds and
returns exactly those pseudo moves (resp. pseudo captures, filtered
separately, order preserved — the results are sublists) whose simulation —
apply the movement to a copy, advance the turn — reports the moving
piece's own color not in check; the input state itself is a pure value and
is not modified. -/
theorem moves_and_captures_filter_spec (g : GameState) (piece occ : Piece)
    (piece_pos kpos : BoardPosition)
    (hocc : g.get_pos piece_pos = some occ)
    (hking : g.get_pos kpos = some ⟨piece.color, PieceKind.King⟩) :
    ∃ m c, g.moves_and_captures piece piece_pos = some (m, c) ∧
      List.Sublist m (g.pseudo_moves_and_captures piece piece_pos).1 ∧
      List.Sublist c (g.pseudo_moves_and_captures piece piece_pos).2 ∧
      (∀ p, p ∈ m ↔ p ∈ (g.pseudo_moves_and_captures piece piece_pos).1 ∧
        ∃ st cap, g.apply_movement piece_pos p = some (st, cap) ∧
          st.advance_turn.is_in_check piece.color = some false) ∧
      (∀ p, p ∈ c ↔ p ∈ (g.pseudo_moves_and_captures piece piece_pos).2 ∧
        ∃ st cap, g.apply_movement piece_pos p = some (st, cap) ∧
          st.advance_turn.is_in_check piece.color = some false) := by
  have hsome1 : ∀ x ∈ (g.pseudo_moves_and_captures piece piece_pos).1,
      (g.sim_ok piece piece_pos x).isSome = true := by
    intro x hx
    obtain ⟨st, cap, b, -, -, hs⟩ := sim_ok_some_of_candidate hocc hking (Or.inl hx)
    rw [hs]
    rfl
  have hsome2 : ∀ x ∈ (g.pseudo_moves_and_captures piece piece_pos).2,
      (g.sim_ok piece piece_pos x).isSome = true := by
    intro x hx
    obtain ⟨st, cap, b, -, -, hs⟩ := sim_ok_some_of_candidate hocc hking (Or.inr hx)
    rw [hs]
    rfl
  obtain ⟨m, hm, hmsub, hmmem⟩ := retain_safe_spec hsome1
  obtain ⟨c, hc, hcsub, hcmem⟩ := retain_safe_spec hsome2
  refine ⟨m, c, ?_, hmsub, hcsub, ?_, ?_⟩
  · rw [GameState.moves_and_captures, hm, hc]
  · intro p
    rw [hmmem p]
    constructor
    · rintro ⟨hp, hcond⟩
      obtain ⟨st, cap, b, happ, hb, hs⟩ := sim_ok_some_of_candidate hocc hking (Or.inl hp)
      refine ⟨hp, st, cap, happ, ?_⟩
      rw [hs] at hcond
      have hbf : b = false := by
        have := Option.some.inj hcond
        cases b
        · rfl
        · exact absurd this (by simp)
      rw [hbf] at hb
      exact hb
    · rintro ⟨hp, st, cap, happ, hchk⟩
      refine ⟨hp, ?_⟩
      unfold GameState.sim_ok
      rw [happ]
      dsimp only
      rw [hchk]
      rfl
  · intro p
    rw [hcmem p]
    constructor
    · rintro ⟨hp, hcond⟩
      obtain ⟨st, cap, b, happ, hb, hs⟩ := sim_ok_some_of_candidate hocc hking (Or.inr hp)
      refine ⟨hp, st, cap, happ, ?_⟩
      rw [hs] at hcond
      have hbf : b = false := by
        have := Option.some.inj hcond
        cases b
        · rfl
        · exact absurd this (by simp)
      rw [hbf] at hb
      exact hb
    · rintro ⟨hp, st, cap, happ, hchk⟩
      refine ⟨hp, ?_⟩
      unfold GameState.sim_ok
      rw [happ]
      dsimp only
      rw [hchk]
      rfl

/-- Uniqueness over the finite board scan suffices for uniqueness over all
positions, since any occupied position is in bounds. -/
theorem unique_on_board {g : GameState} {piece : Piece} {kpos : BoardPosition}
    (h : ∀ q ∈ allPositions, g.get_pos q = some piece → q = kpos) :
    ∀ q, g.get_pos q = some piece → q = kpos := fun q hq =>
  h q ((mem_allPositions_iff q).mpr (in_bounds_of_get_pos_some hq)) hq

/-- C4: in a state whose board holds exactly one king of the given color
(hence the `expect`-panic path of `get_king_pos` is not taken and
`is_in_check` produces a Boolean), `is_in_check` reports `true` exactly
when some opposing piece on the board has the king's square among its
pseudo captures (only the captures list is consulted); the function is a
pure predicate of the state. -/
theorem is_in_check_iff (g : GameState) (player : PieceColor) (kpos : BoardPosition)
    (hk : g.get_pos kpos = some ⟨player, PieceKind.King⟩)
    (huniq : ∀ q, g.get_pos q = some ⟨player, PieceKind.King⟩ → q = kpos) :
    g.is_in_check player = some true ↔
      ∃ piece pos, g.get_pos pos = some piece ∧ piece.color ≠ player ∧
        kpos ∈ (g.pseudo_moves_and_captures piece pos).2 := by
  have hking : g.get_king_pos player = some kpos := by
    obtain ⟨pos', hkp, hkget⟩ := get_king_pos_of_king hk
    rw [huniq pos' hkget] at hkp
    exact hkp
  unfold GameState.is_in_check
  rw [hking]
  rw [Option.some.injEq]
  rw [List.any_eq_true]
  constructor
  · rintro ⟨x, hxmem, hxany⟩
    rw [List.mem_filter] at hxmem
    obtain ⟨hxiter, hxcol⟩ := hxmem
    rw [List.any_eq_true] at hxany
    obtain ⟨p, hpmem, hpeq⟩ := hxany
    rcases of_decide_eq_true hpeq with rfl
    exact ⟨x.1, x.2, (mem_iter_pieces_iff g x).mp hxiter,
      of_decide_eq_true hxcol, hpmem⟩
  · rintro ⟨piece, pos, hget, hcol, hcap⟩
    refine ⟨(piece, pos), ?_, ?_⟩
    · rw [List.mem_filter]
      exact ⟨(mem_iter_pieces_iff g (piece, pos)).mpr hget, decide_eq_true hcol⟩
    · rw [List.any_eq_true]
      exact ⟨kpos, hcap, decide_eq_true rfl⟩

theorem pseudo_results_classified_witness :
    (⟨0, 0⟩ : BoardPosition).is_in_bounds = true ∧
    (((⟨0, 3⟩ : BoardPosition) ∈
        (rookTargetState.pseudo_moves_and_captures wRook ⟨0, 0⟩).1 →
      (⟨0, 3⟩ : BoardPosition).is_in_bounds = true ∧
        rookTargetState.get_pos ⟨0, 3⟩ = none) ∧
    ((⟨0, 3⟩ : BoardPosition) ∈
        (rookTargetState.pseudo_moves_and_captures wRook ⟨0, 0⟩).2 →
      (⟨0, 3⟩ : BoardPosition).is_in_bounds = true ∧
        ∃ q, rookTargetState.get_pos ⟨0, 3⟩ = some q ∧ q.color ≠ wRook.color)) :=
  ⟨by decide, pseudo_results_classified rookTargetState wRook ⟨0, 0⟩ (by decide) ⟨0, 3⟩⟩

theorem check_line_ray_spec_witness :
    ((0 : Int), (1 : Int)) ∈ queenDirections ∧
    (⟨0, 0⟩ : BoardPosition).is_in_bounds = true ∧
    ((∀ p, p ∈ (rookTargetState.check_line wRook ⟨0, 0⟩ (0, 1)).1 ↔
      ∃ j, 1 ≤ j ∧ p = rayStep ⟨0, 0⟩ (0, 1) j ∧
        ∀ i, 1 ≤ i → i ≤ j →
          (rayStep ⟨0, 0⟩ (0, 1) i).is_in_bounds = true ∧
            rookTargetState.get_pos (rayStep ⟨0, 0⟩ (0, 1) i) = none) ∧
    (∀ p, p ∈ (rookTargetState.check_line wRook ⟨0, 0⟩ (0, 1)).2 ↔
      ∃ j, 1 ≤ j ∧ p = rayStep ⟨0, 0⟩ (0, 1) j ∧
        (rayStep ⟨0, 0⟩ (0, 1) j).is_in_bounds = true ∧
        (∃ q, rookTargetState.get_pos (rayStep ⟨0, 0⟩ (0, 1) j) = some q ∧
          q.color ≠ wRook.color) ∧
        ∀ i, 1 ≤ i → i < j →
          (rayStep ⟨0, 0⟩ (0, 1) i).is_in_bounds = true ∧
            rookTargetState.get_pos (rayStep ⟨0, 0⟩ (0, 1) i) = none) ∧
    (∀ fuel, 9 ≤ fuel →
      rookTargetState.check_line_fuel wRook ⟨0, 0⟩ (0, 1) fuel =
        rookTargetState.check_line wRook ⟨0, 0⟩ (0, 1))) :=
  ⟨by decide, by decide,
    check_line_ray_spec rookTargetState wRook ⟨0, 0⟩ (0, 1) (by decide) (by decide)⟩

/-- The C3 witness scenario: a white king on E1, a white rook on A1 and a
black pawn on A4 — the rook's candidates include plain moves and the pawn
capture, the mover's king is on the board, and no simulated call
panics. -/
def kingRookState : GameState :=
  ⟨boardOf [(⟨0, 4⟩, wKing), (⟨0, 0⟩, wRook),
    (⟨3, 0⟩, ⟨PieceColor.Black, PieceKind.Pawn true⟩)], PieceColor.White, none⟩

theorem moves_and_captures_filter_spec_witness :
    kingRookState.get_pos ⟨0, 0⟩ = some wRook ∧
    kingRookState.get_pos ⟨0, 4⟩ = some ⟨wRook.color, PieceKind.King⟩ ∧
    ∃ m c, kingRookState.moves_and_captures wRook ⟨0, 0⟩ = some (m, c) ∧
      List.Sublist m (kingRookState.pseudo_moves_and_captures wRook ⟨0, 0⟩).1 ∧
      List.Sublist c (kingRookState.pseudo_moves_and_captures wRook ⟨0, 0⟩).2 ∧
      (∀ p, p ∈ m ↔ p ∈ (kingRookState.pseudo_moves_and_captures wRook ⟨0, 0⟩).1 ∧
        ∃ st cap, kingRookState.apply_movement ⟨0, 0⟩ p = some (st, cap) ∧
          st.advance_turn.is_in_check wRook.color = some false) ∧
      (∀ p, p ∈ c ↔ p ∈ (kingRookState.pseudo_moves_and_captures wRook ⟨0, 0⟩).2 ∧
        ∃ st cap, kingRookState.apply_movement ⟨0, 0⟩ p = some (st, cap) ∧
          st.advance_turn.is_in_check wRook.color = some false) :=
  ⟨by decide, by decide,
    moves_and_captures_filter_spec kingRookState wRook wRook ⟨0, 0⟩ ⟨0, 4⟩
      (by decide) (by decide)⟩

/-- The spec's check scenario: a lone white king on E1 and a black queen on
A1 with the first rank otherwise clear. -/
def queenCheckState : GameState :=
  ⟨boardOf [(⟨0, 4⟩, ⟨PieceColor.White, PieceKind.King⟩),
    (⟨0, 0⟩, ⟨PieceColor.Black, PieceKind.Queen⟩)], PieceColor.White, none⟩

theorem is_in_check_iff_witness :
    queenCheckState.get_pos ⟨0, 4⟩ = some ⟨PieceColor.White, PieceKind.King⟩ ∧
    (∀ q, queenCheckState.get_pos q = some ⟨PieceColor.White, PieceKind.King⟩ →
      q = ⟨0, 4⟩) ∧
    (queenCheckState.is_in_check PieceColor.White = some true ↔
      ∃ piece pos, queenCheckState.get_pos pos = some piece ∧
        piece.color ≠ PieceColor.White ∧
        (⟨0, 4⟩ : BoardPosition) ∈ (queenCheckState.pseudo_moves_and_captures piece pos).2) :=
  ⟨by decide, unique_on_board (by decide),
    is_in_check_iff queenCheckState PieceColor.White ⟨0, 4⟩ (by decide)
      (unique_on_board (by decide))⟩

end Schach
